import Mathlib

/-!
Shallow embedding of the saturday SAT solver (package saturday, file
saturday.go, plus the DIMACS reader/writer) in Lean 4.

Conventions of the embedding:
* Go `int` is modelled as `Int` (values in programs stay far below 2^63; the
  one place where the 64-bit range is observable, `strconv.Atoi`, carries the
  explicit range check).
* The Go types `literal` (uint32) and `assnVal` (uint8) are modelled as `Nat`
  with the same bit operations (`&&&`, `^^^`, `>>>`); the code never comes
  near an overflow of either type.
* Go maps used only through lookup are modelled as association lists in
  insertion order; a lookup of a missing key returns the Go zero value, as in
  Go.  The two `range` loops over a map whose iteration order is observable
  are parametrised by an explicit order (see `solveGoO`).
* Go panics are modelled with `Except String`; the panic message is the Go
  message.  Unbounded loops are modelled with fuel (`Out.timeout` when the
  fuel runs out); a Go run that terminates corresponds to every sufficiently
  large fuel.
* The two unconditional `fmt.Printf` debug statements and the
  `pretty.Println` call inside `solver.bcp` (saturday.go lines 496-499) are
  modelled by appending the printed lines to a `stdout` field of the solver
  state.
-/

/-- Assignment value `unassigned` (Go `assnVal` 0). -/
def unassignedV : Nat := 0

/-- Assignment value `assnTrue` (Go `assnVal` 1). -/
def assnTrueV : Nat := 1

/-- Assignment value `assnFalse` (Go `assnVal` 2). -/
def assnFalseV : Nat := 2

/-- Go `literal.assn()`: `assnVal(l&1) + 1`. -/
def litAssn (l : Nat) : Nat := (l &&& 1) + 1

/-- Go `assnVal.inv()`: `a ^ 3`. -/
def invAssn (a : Nat) : Nat := a ^^^ 3

/-- Go `abs` from saturday.go. -/
def goAbs (n : Int) : Int := if n < 0 then -n else n

/-- Lookup in an association list modelling a Go `map[int]assnVal` /
`map[int]int`; `none` when the key is absent. -/
def alLookup (m : List (Int × Nat)) (k : Int) : Option Nat :=
  match m with
  | [] => none
  | (k1, v1) :: rest => if k1 = k then some v1 else alLookup rest k

/-- Store into an association list: update in place when the key is present
(Go map semantics; insertion order of first occurrence is kept), append
otherwise. -/
def alStore (m : List (Int × Nat)) (k : Int) (v : Nat) : List (Int × Nat) :=
  match m with
  | [] => [(k, v)]
  | (k1, v1) :: rest =>
    if k1 = k then (k1, v) :: rest else (k1, v1) :: alStore rest k v

/-- Membership of a key in the association list. -/
def alMem (m : List (Int × Nat)) (k : Int) : Bool :=
  (alLookup m k).isSome

/-! ## The literal heap (`litHeap` plus Go `container/heap`)

The Go `litHeap` keeps a slice `lits` of heap items together with a map
`m : literal -> index` that the `Swap`/`Push`/`Pop` methods keep exactly in
sync with the slice (every stored literal is distinct, which
`pushUnassigned` enforces before each push).  We therefore model the heap by
the literal slice alone; the map lookups of the source become positional
lookups in the slice. -/

/-- Go `litHeap.Less i j`: compare the watch-list lengths of the literals at
positions `i` and `j` (a max-heap, hence `>`). -/
def heapLess (w : List (List Nat)) (lits : List Nat) (i j : Nat) : Bool :=
  (w.getD (lits.getD i 0) []).length > (w.getD (lits.getD j 0) []).length

/-- Go `litHeap.Swap i j` restricted to the slice of literals. -/
def swapAt (l : List Nat) (i j : Nat) : List Nat :=
  let a := l.getD i 0
  let b := l.getD j 0
  (l.set i b).set j a

/-- Go `container/heap.up`, with an explicit iteration bound: the index `j`
strictly decreases in every pass of the loop, so a bound of `j + 1` (used by
`heapUp`) can never be exhausted.  The bound makes the recursion structural,
so that the kernel can evaluate it. -/
def heapUpF (w : List (List Nat)) : Nat → List Nat → Nat → List Nat
  | 0, lits, _ => lits
  | fuel + 1, lits, j =>
    let i := (j - 1) / 2
    if i = j ∨ ¬ heapLess w lits j i then lits
    else heapUpF w fuel (swapAt lits j i) i

/-- Go `container/heap.up` proper. -/
def heapUp (w : List (List Nat)) (lits : List Nat) (j : Nat) : List Nat :=
  heapUpF w (j + 1) lits j

/-- Go `container/heap.down` loop, returning the slice together with the
final index `i`.  The index strictly increases towards `n` in every pass, so
the bound `n + 1` used by `heapDownGo` can never be exhausted. -/
def heapDownF (w : List (List Nat)) : Nat → List Nat → Nat → Nat →
    List Nat × Nat
  | 0, lits, i, _ => (lits, i)
  | fuel + 1, lits, i, n =>
    let j1 := 2 * i + 1
    if j1 ≥ n then (lits, i)
    else
      let j := if j1 + 1 < n ∧ heapLess w lits (j1 + 1) j1 then j1 + 1 else j1
      if heapLess w lits j i then heapDownF w fuel (swapAt lits i j) j n
      else (lits, i)

/-- Go `container/heap.down` loop with the sufficient bound. -/
def heapDownGo (w : List (List Nat)) (lits : List Nat) (i n : Nat) :
    List Nat × Nat :=
  heapDownF w (n + 1) lits i n

/-- Go `container/heap.down` proper: `true` when the element moved down. -/
def heapDown (w : List (List Nat)) (lits : List Nat) (i0 n : Nat) :
    List Nat × Bool :=
  let r := heapDownGo w lits i0 n
  (r.1, decide (r.2 > i0))

/-- Go `container/heap.Push` composed with `litHeap.Push`. -/
def heapPush (w : List (List Nat)) (lits : List Nat) (x : Nat) : List Nat :=
  heapUp w (lits ++ [x]) lits.length

/-- Go `container/heap.Pop` composed with `litHeap.Pop`: returns the popped
literal and the remaining slice.  The caller guarantees nonemptiness. -/
def heapPop (w : List (List Nat)) (lits : List Nat) : Nat × List Nat :=
  let n := lits.length - 1
  let l1 := swapAt lits 0 n
  let l2 := (heapDown w l1 0 n).1
  (l2.getD n 0, l2.take n)

/-- Go `container/heap.Remove` at index `i` (the removed item is discarded,
as in `deleteUnassigned`). -/
def heapRemove (w : List (List Nat)) (lits : List Nat) (i : Nat) :
    List Nat :=
  let n := lits.length - 1
  let l :=
    if n ≠ i then
      let l1 := swapAt lits i n
      let r := heapDown w l1 i n
      if r.2 then r.1 else heapUp w r.1 i
    else lits
  l.take n

/-- Go `container/heap.Fix` at index `i`. -/
def heapFix (w : List (List Nat)) (lits : List Nat) (i : Nat) : List Nat :=
  let r := heapDown w lits i lits.length
  if r.2 then r.1 else heapUp w r.1 i

/-! ## The simplifier (`simplify`, saturday.go lines 176-269) -/

/-- Result of one simplifier pass over the clause list. -/
inductive PassOut where
  | unsat
  | next (clauses : List (List Int)) (vars : List (Int × Nat)) (changed : Bool)
deriving DecidableEq, Repr

/-- Inner literal filter of a (non-unit, non-empty) clause: Go saturday.go
lines 241-255.  Returns (clause is satisfied, kept literals, some literal had
an assigned variable). -/
def filterLits (vars : List (Int × Nat)) : List Int → Bool × List Int × Bool
  | [] => (false, [], false)
  | v :: rest =>
    let assn := (alLookup vars (goAbs v)).getD unassignedV
    if assn == unassignedV then
      let r := filterLits vars rest
      (r.1, v :: r.2.1, r.2.2)
    else if (assn == assnTrueV) == decide (v > 0) then
      -- Clause is already satisfied (Go `continue clauseLoop`);
      -- the clause is dropped from the list.
      (true, [], true)
    else
      -- Literal is false and can be dropped.
      let r := filterLits vars rest
      (r.1, r.2.1, true)

/-- One pass of the simplifier fixpoint loop (the body of Go
`for changed { ... }`, the `clauseLoop` of saturday.go lines 211-258),
threading the variable assignment map through the clause list. -/
def simpPass (vars : List (Int × Nat)) : List (List Int) → PassOut
  | [] => .next [] vars false
  | cls :: rest =>
    match cls with
    | [] => .unsat
    | [v] =>
      let assn := if v < 0 then assnFalseV else assnTrueV
      let v1 := goAbs v
      let cur := (alLookup vars v1).getD unassignedV
      if cur != unassignedV && cur != assn then .unsat
      else
        match simpPass (alStore vars v1 assn) rest with
        | .unsat => .unsat
        | .next cs vars2 _ => .next cs vars2 true
    | _ =>
      let r := filterLits vars cls
      match simpPass vars rest with
      | .unsat => .unsat
      | .next cs vars2 ch =>
        if r.1 then .next cs vars2 true
        else .next (r.2.1 :: cs) vars2 (ch || r.2.2)

/-- Total literal count plus clause count: the termination measure of the
simplifier fixpoint. -/
def simpMeasure (clauses : List (List Int)) : Nat :=
  (clauses.map List.length).sum + clauses.length

/-- Assignment defaulting of the trivially-SAT branch (Go saturday.go lines
201-206): every still-unassigned variable is set to TRUE.  The Go loop
updates each map entry independently, so it is a pointwise map. -/
def defaultTrue (vars : List (Int × Nat)) : List (Int × Nat) :=
  vars.map (fun p => if p.2 = unassignedV then (p.1, assnTrueV) else p)

theorem filterLits_length_le (vars : List (Int × Nat)) (cls : List Int) :
    (filterLits vars cls).2.1.length ≤ cls.length := by
  induction cls with
  | nil => simp [filterLits]
  | cons v rest ih =>
    simp only [filterLits]
    split
    · simpa using Nat.succ_le_succ ih
    · split
      · simp
      · exact Nat.le_succ_of_le ih

theorem filterLits_touched_lt (vars : List (Int × Nat)) (cls : List Int) :
    (filterLits vars cls).1 = false → (filterLits vars cls).2.2 = true →
      (filterLits vars cls).2.1.length < cls.length := by
  induction cls with
  | nil => intro _ ht; simp [filterLits] at ht
  | cons v rest ih =>
    simp only [filterLits]
    split
    · intro hs ht
      exact Nat.succ_lt_succ (ih hs ht)
    · split
      · intro hs _
        simp at hs
      · intro hs _
        have := filterLits_length_le vars rest
        simp only [List.length_cons]
        omega

theorem simpPass_measure_le (vars : List (Int × Nat))
    (clauses : List (List Int)) :
    ∀ cs vars2 ch, simpPass vars clauses = .next cs vars2 ch →
      simpMeasure cs ≤ simpMeasure clauses := by
  induction clauses generalizing vars with
  | nil =>
    intro cs vars2 ch h
    simp only [simpPass] at h
    cases h
    exact le_refl _
  | cons cls rest ih =>
    intro cs vars2 ch h
    match cls with
    | [] => simp [simpPass] at h
    | [v] =>
      simp only [simpPass] at h
      generalize hA : (if v < 0 then assnFalseV else assnTrueV) = A at h
      split at h
      · exact absurd h (by simp)
      · cases hrec : simpPass (alStore vars (goAbs v) A) rest with
        | unsat => rw [hrec] at h; exact absurd h (by simp)
        | next cs2 vars3 ch2 =>
          rw [hrec] at h
          simp only [PassOut.next.injEq] at h
          obtain ⟨h1, h2, h3⟩ := h
          subst h1
          have := ih _ _ _ _ hrec
          simp only [simpMeasure, List.map_cons, List.sum_cons, List.length_cons] at *
          omega
    | v1 :: v2 :: tl =>
      simp only [simpPass] at h
      split at h
      · exact absurd h (by simp)
      · rename_i cs2 vars3 ch2 hrec
        have hle := ih _ _ _ _ hrec
        split at h <;> simp only [PassOut.next.injEq] at h <;>
          obtain ⟨h1, h2, h3⟩ := h <;> subst h1
        · simp only [simpMeasure, List.map_cons, List.sum_cons, List.length_cons] at *
          omega
        · have hf := filterLits_length_le vars (v1 :: v2 :: tl)
          simp only [simpMeasure, List.map_cons, List.sum_cons, List.length_cons,
            List.length_cons] at *
          omega

theorem simpPass_measure_lt (vars : List (Int × Nat))
    (clauses : List (List Int)) :
    ∀ cs vars2, simpPass vars clauses = .next cs vars2 true →
      simpMeasure cs < simpMeasure clauses := by
  induction clauses generalizing vars with
  | nil =>
    intro cs vars2 h
    simp only [simpPass] at h
    cases h
  | cons cls rest ih =>
    intro cs vars2 h
    match cls with
    | [] => simp [simpPass] at h
    | [v] =>
      simp only [simpPass] at h
      generalize hA : (if v < 0 then assnFalseV else assnTrueV) = A at h
      split at h
      · exact absurd h (by simp)
      · cases hrec : simpPass (alStore vars (goAbs v) A) rest with
        | unsat => rw [hrec] at h; exact absurd h (by simp)
        | next cs2 vars3 ch2 =>
          rw [hrec] at h
          simp only [PassOut.next.injEq] at h
          obtain ⟨h1, h2, h3⟩ := h
          subst h1
          have := simpPass_measure_le _ _ _ _ _ hrec
          simp only [simpMeasure, List.map_cons, List.sum_cons, List.length_cons] at *
          omega
    | v1 :: v2 :: tl =>
      simp only [simpPass] at h
      split at h
      · exact absurd h (by simp)
      · rename_i cs2 vars3 ch2 hrec
        have hle := simpPass_measure_le _ _ _ _ _ hrec
        split at h
        · simp only [PassOut.next.injEq] at h
          obtain ⟨h1, h2, h3⟩ := h
          subst h1
          simp only [simpMeasure, List.map_cons, List.sum_cons, List.length_cons] at *
          omega
        · rename_i hsat
          have hsat2 : (filterLits vars (v1 :: v2 :: tl)).1 = false := by
            revert hsat
            cases (filterLits vars (v1 :: v2 :: tl)).1 <;> simp
          simp only [PassOut.next.injEq] at h
          obtain ⟨h1, h2, h3⟩ := h
          subst h1
          rcases (Bool.or_eq_true _ _).mp h3 with hc | htch
          · have hstrict := ih _ _ _ (by rw [hrec, hc])
            have hf := filterLits_length_le vars (v1 :: v2 :: tl)
            simp only [simpMeasure, List.map_cons, List.sum_cons, List.length_cons] at *
            omega
          · have hlt := filterLits_touched_lt vars (v1 :: v2 :: tl) hsat2 htch
            have hf := filterLits_length_le vars (v1 :: v2 :: tl)
            simp only [simpMeasure, List.map_cons, List.sum_cons, List.length_cons] at *
            omega

/-- State produced by the simplifier: the variable map, the remaining
clauses, and `simpleSat`. -/
structure SimpState where
  vars : List (Int × Nat)
  simplified : List (List Int)
  simpleSat : Nat
deriving DecidableEq, Repr

/-- The simplifier fixpoint loop (Go saturday.go lines 197-260).  The
emptiness check of line 199 happens at the top of every iteration; a pass
that reports a change starts another iteration.  On trivial UNSAT Go returns
immediately; the clause list it leaves behind is never read again, so we
return the pre-pass clause list there. -/
def simpLoopF : Nat → List (Int × Nat) → List (List Int) → SimpState
  | 0, vars, clauses => ⟨vars, clauses, unassignedV⟩
  | fuel + 1, vars, clauses =>
    if clauses = [] then ⟨defaultTrue vars, [], assnTrueV⟩
    else
      match simpPass vars clauses with
      | .unsat => ⟨vars, clauses, assnFalseV⟩
      | .next cs vars2 changed =>
        if changed then simpLoopF fuel vars2 cs
        else ⟨vars2, cs, unassignedV⟩

/-- The simplifier fixpoint loop with its sufficient iteration bound: a pass
that reports a change strictly decreases `simpMeasure`
(`simpPass_measure_lt`), so the bound `simpMeasure clauses + 1` can never be
exhausted. -/
def simpLoop (vars : List (Int × Nat)) (clauses : List (List Int)) :
    SimpState :=
  simpLoopF (simpMeasure clauses + 1) vars clauses

/-- Literal deduplication and variable registration for one input clause
(Go saturday.go lines 181-194), including the zero-literal panic. -/
def dedupClause (vars : List (Int × Nat)) (seen : List Int) :
    List Int → Except String (List Int × List (Int × Nat))
  | [] => .ok ([], vars)
  | v :: rest =>
    if v = 0 then .error "zero var passed to Solve"
    else if seen.contains v then dedupClause vars seen rest
    else
      match dedupClause (alStore vars (goAbs v) unassignedV) (v :: seen) rest with
      | .error e => .error e
      | .ok (cl, vars2) => .ok (v :: cl, vars2)

/-- Deduplication pass over the whole problem (Go saturday.go lines
179-196). -/
def dedupProblem (vars : List (Int × Nat)) :
    List (List Int) → Except String (List (List Int) × List (Int × Nat))
  | [] => .ok ([], vars)
  | cls :: rest =>
    match dedupClause vars [] cls with
    | .error e => .error e
    | .ok (cl, vars2) =>
      match dedupProblem vars2 rest with
      | .error e => .error e
      | .ok (cls2, vars3) => .ok (cl :: cls2, vars3)

/-- Go `simplify` up to (but not including) the construction of
`sv.sourceVars`: the deduplication pass followed by the fixpoint loop. -/
def simplifyCore (problem : List (List Int)) : Except String SimpState :=
  match dedupProblem [] problem with
  | .error e => .error e
  | .ok (simplified, vars) => .ok (simpLoop vars simplified)

/-- Record for one entry of `sv.sourceVars`. -/
structure SourceVar where
  v : Int
  assn : Nat
  i : Nat
deriving DecidableEq, Repr

/-- Key ordering used by the `sort.Slice` call of Go saturday.go lines
265-267. -/
def pairLe (a b : Int × Nat) : Prop := a.1 ≤ b.1

instance : DecidableRel pairLe := fun a b => Int.decLe a.1 b.1

instance : IsTotal (Int × Nat) pairLe := ⟨fun a b => Int.le_total a.1 b.1⟩

instance : IsTrans (Int × Nat) pairLe := ⟨fun _ _ _ h1 h2 => le_trans h1 h2⟩

/-- Sorting of the `sourceVars` slice by source variable (Go sort.Slice on a
slice whose keys are pairwise distinct; any sorted permutation is the unique
one, and insertion sort computes it). -/
def sortPairs (l : List (Int × Nat)) : List (Int × Nat) :=
  List.insertionSort pairLe l

/-- Ordering for `sort.Ints` on the internal `origVars` slice. -/
def intLe (a b : Int) : Prop := a ≤ b

instance : DecidableRel intLe := fun a b => Int.decLe a b

instance : IsTotal Int intLe := ⟨fun a b => Int.le_total a b⟩

instance : IsTrans Int intLe := ⟨fun _ _ _ h1 h2 => le_trans h1 h2⟩

/-- First-occurrence collection of the variables of one simplified clause
(Go saturday.go lines 121-129, inner loop). -/
def collectVarsClause (acc : List Int) : List Int → List Int
  | [] => acc
  | v :: rest =>
    let a := goAbs v
    collectVarsClause (if acc.contains a then acc else acc ++ [a]) rest

/-- First-occurrence collection of the variables of the whole simplified
problem. -/
def collectVarsAll (acc : List Int) : List (List Int) → List Int
  | [] => acc
  | cls :: rest => collectVarsAll (collectVarsClause acc cls) rest

/-- Encoding of a source literal as an internal literal (Go saturday.go
lines 143-152): `vars[abs v] << 1`, with the low bit set for a negated
literal.  A missing key yields the Go zero value 0, as in Go. -/
def litOf (varsIdx : List (Int × Nat)) (v : Int) : Nat :=
  ((alLookup varsIdx (goAbs v)).getD 0) * 2 + (if v < 0 then 1 else 0)

/-- Watch registration of the first two literals of clause `i`
(Go saturday.go lines 154-156), iterating over the literal positions. -/
def watchFirstTwo (watches : List (List Nat)) (i : Nat) :
    List Nat → Nat → List (List Nat)
  | [], _ => watches
  | lit :: rest, j =>
    let watches2 :=
      if j < 2 then watches.set lit ((watches.getD lit []) ++ [i])
      else watches
    watchFirstTwo watches2 i rest (j + 1)

/-- Clause and watch-list construction (Go saturday.go lines 141-158). -/
def buildAllGo (varsIdx : List (Int × Nat)) (i : Nat)
    (clausesAcc : List (List Nat)) (watches : List (List Nat)) :
    List (List Int) → List (List Nat) × List (List Nat)
  | [] => (clausesAcc, watches)
  | cls :: rest =>
    let lits := cls.map (litOf varsIdx)
    let watches2 := watchFirstTwo watches i lits 0
    buildAllGo varsIdx (i + 1) (clausesAcc ++ [lits]) watches2 rest

/-- The full mutable state of the Go `solver` relevant to the search, plus
the list of lines the debug statements of `bcp` write to standard output. -/
structure Solver where
  sourceVars : List SourceVar
  simpleSat : Nat
  simplified : List (List Int)
  origVars : List Int
  assignments : List Nat
  watches : List (List Nat)
  unassigned : List Nat
  decisions : List (Nat × Nat)
  implications : List Nat
  propIndex : Nat
  clauses : List (List Nat)
  numDecisions : Nat
  numImplications : Nat
  stdout : List String
deriving DecidableEq, Repr

/-- Go `solver.pushUnassigned`. -/
def pushUnassigned (sv : Solver) (lit : Nat) : Except String Solver :=
  if sv.unassigned.contains lit then
    .error "push of literal that's already in the unassigned queue"
  else .ok {sv with unassigned := heapPush sv.watches sv.unassigned lit}

/-- Go `solver.popUnassigned`. -/
def popUnassigned (sv : Solver) : Option (Nat × Solver) :=
  if sv.unassigned.length = 0 then none
  else
    let r := heapPop sv.watches sv.unassigned
    some (r.1, {sv with unassigned := r.2})

/-- Go `solver.deleteUnassigned`; the index lookup `sv.unassigned.m[lit]`
is the position of `lit` in the heap slice. -/
def deleteUnassigned (sv : Solver) (lit : Nat) : Except String Solver :=
  if sv.unassigned.contains lit then
    .ok {sv with unassigned :=
          heapRemove sv.watches sv.unassigned (sv.unassigned.indexOf lit)}
  else .error "delete of nonexistent unassigned var"

/-- Go `solver.updateUnassigned`. -/
def updateUnassigned (sv : Solver) (lit : Nat) : Solver :=
  if sv.unassigned.contains lit then
    {sv with unassigned :=
      heapFix sv.watches sv.unassigned (sv.unassigned.indexOf lit)}
  else {sv with unassigned := heapPush sv.watches sv.unassigned lit}

/-- Initial population of the unassigned heap (Go saturday.go lines
161-165): only literals with a nonempty watch list are pushed. -/
def initHeapGo (sv : Solver) : List Nat → Except String Solver
  | [] => .ok sv
  | lit :: rest =>
    if (sv.watches.getD lit []).length > 0 then
      match pushUnassigned sv lit with
      | .error e => .error e
      | .ok sv2 => initHeapGo sv2 rest
    else initHeapGo sv rest

/-- An all-zero solver record (Go zero values). -/
def emptySolver : Solver :=
  ⟨[], unassignedV, [], [], [], [], [], [], [], 0, [], 0, 0, []⟩

/-- Go `newSolver`, parametrised by the iteration order `order` of the final
`range vars` loop of `simplify` (saturday.go lines 262-264); the Go map
iteration order is an arbitrary permutation of the entries, and `simplify`
sorts the result by source variable.  On trivial UNSAT the Go code returns
before building `sourceVars`, leaving it nil. -/
def newSolverO (problem : List (List Int)) (order : List (Int × Nat)) :
    Except String Solver :=
  match simplifyCore problem with
  | .error e => .error e
  | .ok st =>
    let srcVars :=
      if st.simpleSat = assnFalseV then []
      else (sortPairs order).map (fun p => SourceVar.mk p.1 p.2 0)
    if st.simpleSat ≠ unassignedV then
      .ok {emptySolver with
            sourceVars := srcVars, simpleSat := st.simpleSat,
            simplified := st.simplified}
    else
      let origVars := List.insertionSort intLe (collectVarsAll [] st.simplified)
      let varsIdx := origVars.enum.map (fun p => (p.2, p.1))
      let srcVars2 := srcVars.map (fun s =>
        if s.assn = unassignedV then
          {s with i := (alLookup varsIdx s.v).getD 0}
        else s)
      let numV := origVars.length
      let bw := buildAllGo varsIdx 0 [] (List.replicate (numV * 2) []) st.simplified
      let sv : Solver :=
        { sourceVars := srcVars2, simpleSat := st.simpleSat,
          simplified := st.simplified, origVars := origVars,
          assignments := List.replicate numV unassignedV,
          watches := bw.2, unassigned := [], decisions := [],
          implications := [], propIndex := 0, clauses := bw.1,
          numDecisions := 0, numImplications := 0, stdout := [] }
      initHeapGo sv (List.range (numV * 2))

/-- Outcome of a fuel-bounded run: out of fuel, a Go panic, or a value. -/
inductive Out (α : Type) where
  | timeout
  | panicked (msg : String)
  | ok (a : α)
deriving DecidableEq, Repr

/-- Scan of `cls.lits[2:]` for a replacement watch literal (Go saturday.go
lines 459-465): the first position whose literal is not false. -/
def findWatchReplF (assignments : List Nat) (lits : List Nat) :
    Nat → Nat → Option Nat
  | 0, _ => none
  | fuel + 1, j =>
    if j < lits.length then
      let lit := lits.getD j 0
      let assn := (assignments.getD (lit >>> 1) 0) &&& 3
      if assn = invAssn (litAssn lit) then
        findWatchReplF assignments lits fuel (j + 1)
      else some j
    else none

/-- Scan of `cls.lits[2:]` with its sufficient bound (`j` increases towards
`lits.length`). -/
def findWatchRepl (assignments : List Nat) (lits : List Nat) (j : Nat) :
    Option Nat :=
  findWatchReplF assignments lits (lits.length + 1) j

/-- The text the debug statements of `bcp` (saturday.go lines 496-499) write
to standard output when a unit implication is found: two `fmt.Printf` lines
and the `pretty.Println` dump of the unassigned heap (whose exact rendering
we abbreviate; only the fact that lines are written matters).  The map
lookup `sv.unassigned.m[otherWatch]` yields the Go zero value 0 when the
literal is absent. -/
def debugLines (sv : Solver) (otherWatch : Nat) : List String :=
  let mIdx := if sv.unassigned.contains otherWatch then
      sv.unassigned.indexOf otherWatch else 0
  [ "\x1b[01;34m>>>> otherWatch: " ++ toString otherWatch ++ "\x1b[m",
    "\x1b[01;34m>>>> sv.watches[otherWatch]: " ++
      toString (sv.watches.getD otherWatch []) ++ "\x1b[m",
    "\x1b[01;34m>>>> sv.unassigned.m[otherWatch]: " ++ toString mIdx ++ "\x1b[m",
    "pretty.Println sv.unassigned" ]

/-- The `watchesLoop` of Go `solver.bcp` (saturday.go lines 440-503),
walking the watch list of the falsified literal `neg` from position `i`.
The returned flag is `false` exactly when a conflict makes `bcp` return
false. -/
def watchesLoop (fuel : Nat) (sv : Solver) (neg : Nat) (i : Nat) :
    Out (Solver × Bool) :=
  match fuel with
  | 0 => .timeout
  | fuel + 1 =>
    let ws := sv.watches.getD neg []
    if i < ws.length then
      let clauseIdx := ws.getD i 0
      let lits0 := sv.clauses.getD clauseIdx []
      if lits0.getD 0 0 = neg ∨ lits0.getD 1 0 = neg then
        let lits := if lits0.getD 0 0 = neg then swapAt lits0 0 1 else lits0
        let sv := {sv with clauses := sv.clauses.set clauseIdx lits}
        let lit0 := lits.getD 0 0
        if (sv.assignments.getD (lit0 >>> 1) 0) &&& 3 = litAssn lit0 then
          watchesLoop fuel sv neg (i + 1)
        else
          match findWatchRepl sv.assignments lits 2 with
          | some j =>
            let lit := lits.getD j 0
            let assn := (sv.assignments.getD (lit >>> 1) 0) &&& 3
            let w2 := sv.watches.set lit ((sv.watches.getD lit []) ++ [clauseIdx])
            let sv := {sv with watches := w2}
            let sv := if assn = unassignedV then updateUnassigned sv lit else sv
            let wsr := (ws.set i (ws.getD (ws.length - 1) 0)).take (ws.length - 1)
            let sv := {sv with watches := sv.watches.set neg wsr}
            let sv := {sv with clauses := sv.clauses.set clauseIdx (swapAt lits 1 j)}
            watchesLoop fuel sv neg i
          | none =>
            let otherWatch := lits.getD 0 0
            let v := otherWatch >>> 1
            if sv.assignments.getD v 0 ≠ unassignedV then
              .ok (sv, false)
            else
              let sv := {sv with assignments :=
                sv.assignments.set v (litAssn otherWatch)}
              let sv := {sv with stdout := sv.stdout ++ debugLines sv otherWatch}
              match deleteUnassigned sv otherWatch with
              | .error e => .panicked e
              | .ok sv =>
                let sv := {sv with
                  numImplications := sv.numImplications + 1,
                  implications := sv.implications ++ [otherWatch]}
                watchesLoop fuel sv neg (i + 1)
      else .panicked "bad watch var state"
    else .ok (sv, true)

/-- Processing of one batch of newly appended implications (the
`for _, impliedLit := range imps` loop of `bcp`). -/
def processImps (fuel : Nat) (sv : Solver) : List Nat → Out (Solver × Bool)
  | [] => .ok (sv, true)
  | impliedLit :: rest =>
    match watchesLoop fuel sv (impliedLit ^^^ 1) 0 with
    | .timeout => .timeout
    | .panicked e => .panicked e
    | .ok (sv2, true) => processImps fuel sv2 rest
    | .ok (sv2, false) => .ok (sv2, false)

/-- Go `solver.bcp` (saturday.go lines 419-506): repeat until the
propagation cursor reaches the end of the trail; `false` on conflict. -/
def bcpLoop (fuel : Nat) (sv : Solver) : Out (Solver × Bool) :=
  match fuel with
  | 0 => .timeout
  | fuel + 1 =>
    let imps := sv.implications.drop sv.propIndex
    if imps.length = 0 then .ok (sv, true)
    else
      let sv := {sv with propIndex := sv.implications.length}
      match processImps fuel sv imps with
      | .ok (sv2, true) => bcpLoop fuel sv2
      | r => r

/-- Search for the topmost decision that has not been tried both ways
(Go saturday.go lines 544-553); the argument is one past the index to
examine next. -/
def findUnflippedGo (sv : Solver) : Nat → Option Nat
  | 0 => none
  | n + 1 =>
    let d := sv.decisions.getD n (0, 0)
    if (sv.assignments.getD (d.2 >>> 1) 0) &&& 4 = 0 then some n
    else findUnflippedGo sv n

/-- Rollback of the implication trail entries strictly above `stop`
(Go saturday.go lines 562-566), processed from the top down. -/
def rollbackF (stop : Nat) : Nat → Solver → Nat → Except String Solver
  | 0, sv, _ => .ok sv
  | fuel + 1, sv, i =>
    if i > stop then
      let lit := sv.implications.getD i 0
      match pushUnassigned sv lit with
      | .error e => .error e
      | .ok sv2 =>
        rollbackF stop fuel
          {sv2 with assignments := sv2.assignments.set (lit >>> 1) unassignedV}
          (i - 1)
    else .ok sv

/-- Rollback loop with its sufficient bound (`i` strictly decreases). -/
def rollbackGo (sv : Solver) (stop : Nat) (i : Nat) : Except String Solver :=
  rollbackF stop (i + 1) sv i

/-- Go `solver.resolveConflict` (saturday.go lines 540-574); `false` means
no decision was left to flip (UNSAT). -/
def resolveConflict (sv : Solver) : Except String (Solver × Bool) :=
  match findUnflippedGo sv sv.decisions.length with
  | none => .ok (sv, false)
  | some di =>
    let d := sv.decisions.getD di (0, 0)
    match rollbackGo sv d.1 (sv.implications.length - 1) with
    | .error e => .error e
    | .ok sv =>
      let imps2 := sv.implications.take (d.1 + 1)
      let imps3 := imps2.set d.1 ((imps2.getD d.1 0) ^^^ 1)
      let decs2 := sv.decisions.take (di + 1)
      let decs3 := decs2.set di (d.1, d.2 ^^^ 1)
      let asn2 := sv.assignments.set (d.2 >>> 1)
        ((sv.assignments.getD (d.2 >>> 1) 0) ^^^ 5)
      let sv2 := {sv with implications := imps3, decisions := decs3}
      .ok ({sv2 with assignments := asn2, propIndex := d.1}, true)

/-- The `for !sv.bcp() { if !sv.resolveConflict() { return false } }` loop
of `solve` (saturday.go lines 399-403); `false` means UNSAT. -/
def bcpFix (fuel : Nat) (sv : Solver) : Out (Solver × Bool) :=
  match fuel with
  | 0 => .timeout
  | fuel + 1 =>
    match bcpLoop fuel sv with
    | .ok (sv2, true) => .ok (sv2, true)
    | .ok (sv2, false) =>
      match resolveConflict sv2 with
      | .error e => .panicked e
      | .ok (sv3, false) => .ok (sv3, false)
      | .ok (sv3, true) => bcpFix fuel sv3
    | r => r

/-- The decision block at the top of the `solve` loop (saturday.go lines
381-397): pop a literal, delete its complement, assign, record the decision
and append the literal to the trail.  `none` when the unassigned heap is
empty (Go returns true). -/
def runDecide (sv : Solver) : Option (Except String (Solver × Nat)) :=
  match popUnassigned sv with
  | none => none
  | some (lit, sv) =>
    match deleteUnassigned sv (lit ^^^ 1) with
    | .error e => some (.error e)
    | .ok sv =>
      let v := lit >>> 1
      let sv := {sv with
        assignments := sv.assignments.set v (litAssn lit),
        numDecisions := sv.numDecisions + 1}
      let sv := {sv with
        decisions := sv.decisions ++ [(sv.implications.length, lit)],
        propIndex := sv.implications.length}
      let sv := {sv with implications := sv.implications ++ [lit]}
      some (.ok (sv, lit))

/-- The main loop of Go `solver.solve` (saturday.go lines 376-404). -/
def solveLoop (fuel : Nat) (sv : Solver) : Out (Solver × Bool) :=
  match fuel with
  | 0 => .timeout
  | fuel + 1 =>
    match runDecide sv with
    | none => .ok (sv, true)
    | some (.error e) => .panicked e
    | some (.ok (sv, _)) =>
      match bcpFix fuel sv with
      | .ok (sv2, true) => solveLoop fuel sv2
      | .ok (sv2, false) => .ok (sv2, false)
      | r => r

/-- Go `solver.solve` (saturday.go lines 362-405) including the
`simpleSat` short-circuit. -/
def solveGo (fuel : Nat) (sv : Solver) : Out (Solver × Bool) :=
  if sv.simpleSat = assnTrueV then .ok (sv, true)
  else if sv.simpleSat = assnFalseV then .ok (sv, false)
  else solveLoop fuel sv

/-- Extraction of the solution slice from the final solver state
(Go `Solve`, saturday.go lines 301-315). -/
def extractSoln (sv : Solver) : List SourceVar → Except String (List Int)
  | [] => .ok []
  | s :: rest =>
    let assn :=
      if s.assn = unassignedV then (sv.assignments.getD s.i 0) &&& 3
      else s.assn
    if assn = assnFalseV then
      match extractSoln sv rest with
      | .error e => .error e
      | .ok l => .ok ((-s.v) :: l)
    else if assn = assnTrueV then
      match extractSoln sv rest with
      | .error e => .error e
      | .ok l => .ok (s.v :: l)
    else .error "incomplete solution"

/-- The three informational entries of the stats map of Go `Solve`. -/
structure GoStats where
  solvedBySimplification : Bool
  numDecisions : Nat
  numImplications : Nat
deriving DecidableEq, Repr

/-- The observable result of a successful (non-panicking) run of Go `Solve`:
the returned assignment (nil on UNSAT), the stats map, the `sat` flag, and
everything the run wrote to standard output. -/
structure GoOutput where
  assignment : List Int
  stats : GoStats
  sat : Bool
  stdout : List String
deriving DecidableEq, Repr

/-- Go `Solve` (saturday.go lines 287-317), parametrised by fuel and by the
map iteration order handed to `newSolverO`. -/
def solveGoO (fuel : Nat) (problem : List (List Int))
    (order : List (Int × Nat)) : Out GoOutput :=
  match newSolverO problem order with
  | .error e => .panicked e
  | .ok sv =>
    match solveGo fuel sv with
    | .timeout => .timeout
    | .panicked e => .panicked e
    | .ok (sv, okFlag) =>
      let stats : GoStats :=
        ⟨decide (sv.simpleSat ≠ unassignedV), sv.numDecisions,
         sv.numImplications⟩
      if okFlag then
        match extractSoln sv sv.sourceVars with
        | .error e => .panicked e
        | .ok soln => .ok ⟨soln, stats, true, sv.stdout⟩
      else .ok ⟨[], stats, false, sv.stdout⟩

/-- The canonical map iteration order: the entries of the variable map in
insertion order. -/
def canonicalOrder (problem : List (List Int)) : List (Int × Nat) :=
  match simplifyCore problem with
  | .error _ => []
  | .ok st => st.vars

/-- Go `Solve` with the canonical iteration order. -/
def goSolve (fuel : Nat) (problem : List (List Int)) : Out GoOutput :=
  solveGoO fuel problem (canonicalOrder problem)

/-! ## Satisfaction semantics of CNF problems

Truth of clauses under a total assignment of the source variables, used to
state soundness and completeness of the solver. -/

/-- Truth value of a literal under an assignment of the (positive) source
variables: a positive literal is true iff its variable is true, a negative
literal iff its variable is false. -/
def litTrue (asg : Int → Bool) (v : Int) : Bool :=
  if v > 0 then asg v else !(asg (-v))

/-- A clause is satisfied iff at least one of its literals is true. -/
def clauseSat (asg : Int → Bool) (cls : List Int) : Bool :=
  cls.any (litTrue asg)

/-- A problem is satisfied iff every clause is satisfied. -/
def problemSat (asg : Int → Bool) (problem : List (List Int)) : Bool :=
  problem.all (clauseSat asg)

/-- The `sat` flag of a run that returned normally. -/
def satFlagOf : Out GoOutput → Option Bool
  | .ok out => some out.sat
  | _ => none

/-- Everything a normally returning run wrote to standard output. -/
def stdoutOf : Out GoOutput → List String
  | .ok out => out.stdout
  | _ => []

/-- The state reached after the first decision of the search and the
propagation (with conflict resolution) that follows it, when that phase
completes without conflict-exhaustion, panic or timeout at fuel 10. -/
def afterFirstPropagation (p : List (List Int)) : Option Solver :=
  match newSolverO p (canonicalOrder p) with
  | .error _ => none
  | .ok sv0 =>
    match runDecide sv0 with
    | some (.ok (sv1, _)) =>
      match bcpFix 10 sv1 with
      | .ok (sv2, true) => some sv2
      | _ => none
    | _ => none

/-! ## Claim theorems: counterexamples to C2, C3, C4, C5, C9 -/

/-- C2 (completeness): the claim states that whenever Solve returns
`sat = false` no assignment satisfies the problem.  The code violates this:
on the satisfiable problem `[[-1,-3],[-1,3],[1,2],[1,2]]` (satisfied by
setting variable 2 true and variables 1 and 3 false) the run returns
normally with `sat = false`.  The cause is the `^= 5` flip in
`resolveConflict` (saturday.go line 571), which turns the assignment value
`assnTrue` (1) into 4 instead of `assnFalseSecond` (6), so the flipped
variable reads as unassigned under the `&3` masks of `bcp` and a spurious
conflict is reported. -/
theorem C2_completeness_counterexample :
    satFlagOf (goSolve 20 [[-1, -3], [-1, 3], [1, 2], [1, 2]]) = some false ∧
    problemSat (fun v => v == 2) [[-1, -3], [-1, 3], [1, 2], [1, 2]] = true := by
  constructor
  · rfl
  · decide

/-- C3 (unassigned-set invariant): the claim states that a variable is
UNASSIGNED iff it is present in the literal heap, and that no assigned
variable is ever popped as a decision.  Counterexample: on
`[[1,2],[1,-2],[-1,2]]`, after the first decision (literal 0, internal
variable 0 set TRUE) and the propagation that follows it, internal variable
1 is assigned TRUE (`assignments.getD 1 0 = assnTrueV`), yet its negative
literal 3 is still in the unassigned heap, and the very next pop of the
decision loop returns that literal 3 of the already-assigned variable.  The
cause is that `bcp` deletes only the implied literal from the heap
(saturday.go line 500), leaving its complement behind. -/
theorem C3_unassigned_invariant_counterexample :
    ((afterFirstPropagation [[1, 2], [1, -2], [-1, 2]]).map
      (fun sv2 => (sv2.assignments.getD 1 0, sv2.unassigned.contains 3,
                   (popUnassigned sv2).map (fun r => r.1)))) =
    some (assnTrueV, true, some 3) := by rfl

/-- C4 (internal-failure safety): the claim states that on inputs without a
zero literal none of the internal panics fires.  The code violates this on
the two-literal problem `[[1, 2]]`: `newSolver` pushes only literals with a
nonempty watch list into the unassigned heap (saturday.go lines 161-165), so
the negative literals 1 and 3 are absent, and the first decision's
`deleteUnassigned(lit ^ 1)` (line 385) panics, for every fuel. -/
theorem C4_panic_on_valid_input :
    ∀ fuel : Nat, goSolve (fuel + 1) [[1, 2]] =
      .panicked "delete of nonexistent unassigned var" := by
  intro fuel; rfl

/-- C5 (termination): the claim concludes that `Solve` always returns.  On
the problem `[[2, 3]]` (no zero literal, trivially satisfiable) no fuel
makes the run return a value: the first loop iteration neither assigns a new
variable nor flips a decision — it panics inside `deleteUnassigned`, so
`Solve` never returns. -/
theorem C5_solve_never_returns :
    ∀ (fuel : Nat) (out : GoOutput), goSolve fuel [[2, 3]] ≠ Out.ok out := by
  intro fuel out h
  match fuel, h with
  | 0, h =>
    rw [show goSolve 0 [[2, 3]] = Out.timeout from rfl] at h
    cases h
  | n + 1, h =>
    rw [show goSolve (n + 1) [[2, 3]] =
      Out.panicked "delete of nonexistent unassigned var" from rfl] at h
    cases h

/-- C9 (output purity): the claim states that the solving computation writes
nothing to standard output.  The code violates this: on the UNSAT problem
`[[1,2],[1,-2],[-1,2],[-1,-2]]` the run returns normally (UNSAT), but the
unconditional debug statements of `bcp` (saturday.go lines 496-499) have
written eight lines to standard output (four per unit implication). -/
theorem C9_bcp_writes_to_stdout :
    stdoutOf (goSolve 10 [[1, 2], [1, -2], [-1, 2], [-1, -2]]) ≠ [] := by
  decide

/-! ## Key-set lemmas for the variable map -/

/-- The keys of the variable map, in insertion order. -/
def keysOf (m : List (Int × Nat)) : List Int := m.map Prod.fst

theorem keysOf_alStore_mem (m : List (Int × Nat)) (k : Int) (v : Nat)
    (h : k ∈ keysOf m) : keysOf (alStore m k v) = keysOf m := by
  induction m with
  | nil => simp [keysOf] at h
  | cons p rest ih =>
    simp only [keysOf, List.map_cons, List.mem_cons] at h
    by_cases hk : p.1 = k
    · simp [alStore, hk, keysOf]
    · rcases h with h | h
      · exact absurd h.symm hk
      · simp only [alStore, keysOf, List.map_cons]
        rw [if_neg hk]
        simp only [List.map_cons, List.cons.injEq, true_and]
        exact ih h

theorem keysOf_alStore_new (m : List (Int × Nat)) (k : Int) (v : Nat)
    (h : k ∉ keysOf m) : keysOf (alStore m k v) = keysOf m ++ [k] := by
  induction m with
  | nil => simp [alStore, keysOf]
  | cons p rest ih =>
    simp only [keysOf, List.map_cons, List.mem_cons, not_or] at h
    simp only [alStore, keysOf, List.map_cons]
    rw [if_neg (fun hc => h.1 hc.symm)]
    simp only [List.map_cons, List.cons_append, List.cons.injEq, true_and]
    exact ih h.2

theorem keysOf_alStore_superset (m : List (Int × Nat)) (k : Int) (v : Nat)
    (x : Int) (h : x ∈ keysOf m) : x ∈ keysOf (alStore m k v) := by
  by_cases hk : k ∈ keysOf m
  · rw [keysOf_alStore_mem m k v hk]; exact h
  · rw [keysOf_alStore_new m k v hk]; exact List.mem_append_left _ h

theorem keysOf_alStore_self (m : List (Int × Nat)) (k : Int) (v : Nat) :
    k ∈ keysOf (alStore m k v) := by
  by_cases hk : k ∈ keysOf m
  · rw [keysOf_alStore_mem m k v hk]; exact hk
  · rw [keysOf_alStore_new m k v hk]; simp

theorem keysOf_alStore_sub (m : List (Int × Nat)) (k : Int) (v : Nat)
    (x : Int) (h : x ∈ keysOf (alStore m k v)) : x ∈ keysOf m ∨ x = k := by
  by_cases hk : k ∈ keysOf m
  · rw [keysOf_alStore_mem m k v hk] at h; exact Or.inl h
  · rw [keysOf_alStore_new m k v hk] at h
    simpa using h

theorem keysOf_alStore_nodup (m : List (Int × Nat)) (k : Int) (v : Nat)
    (h : (keysOf m).Nodup) : (keysOf (alStore m k v)).Nodup := by
  by_cases hk : k ∈ keysOf m
  · rw [keysOf_alStore_mem m k v hk]; exact h
  · rw [keysOf_alStore_new m k v hk]
    simpa [List.nodup_append] using ⟨h, hk⟩

theorem dedupClause_ok_facts :
    ∀ (cls : List Int) (vars : List (Int × Nat)) (seen : List Int)
      (cl : List Int) (vars2 : List (Int × Nat)),
      dedupClause vars seen cls = .ok (cl, vars2) →
      (∀ x ∈ seen, goAbs x ∈ keysOf vars) →
      (∀ k, k ∈ keysOf vars2 ↔ k ∈ keysOf vars ∨ k ∈ cls.map goAbs) ∧
      ((keysOf vars).Nodup → (keysOf vars2).Nodup) ∧
      (∀ v ∈ cls, v ≠ 0) ∧
      (∀ v ∈ cl, v ∈ cls) ∧
      (∀ v ∈ cl, v ∉ seen) ∧ cl.Nodup := by
  intro cls
  induction cls with
  | nil =>
    intro vars seen cl vars2 h _
    simp only [dedupClause] at h
    cases h
    refine ⟨fun k => by simp, id, by simp, by simp, by simp, List.nodup_nil⟩
  | cons v rest ih =>
    intro vars seen cl vars2 h hseen
    simp only [dedupClause] at h
    split at h
    · cases h
    · split at h
      · -- duplicate literal: skipped
        rename_i hv0 hdup
        have hvmem : v ∈ seen := List.elem_iff.mp hdup
        obtain ⟨i1, i2, i3, i4, i5, i6⟩ := ih vars seen cl vars2 h hseen
        refine ⟨fun k => ?_, i2, ?_, fun x hx => List.mem_cons_of_mem _ (i4 x hx), i5, i6⟩
        · constructor
          · intro hk
            rcases (i1 k).mp hk with hk1 | hk2
            · exact Or.inl hk1
            · exact Or.inr (by simpa using Or.inr (by simpa using hk2))
          · intro hk
            rcases hk with hk | hk
            · exact (i1 k).mpr (Or.inl hk)
            · simp only [List.map_cons, List.mem_cons] at hk
              rcases hk with hk | hk
              · exact (i1 k).mpr (Or.inl (hk ▸ hseen v hvmem))
              · exact (i1 k).mpr (Or.inr hk)
        · intro x hx
          rcases List.mem_cons.mp hx with hx | hx
          · subst hx; exact hv0
          · exact i3 x hx
      · -- fresh literal: registered and kept
        rename_i hv0 hdup
        have hvnot : v ∉ seen := fun hc => hdup (List.elem_iff.mpr hc)
        cases hrec : dedupClause (alStore vars (goAbs v) unassignedV) (v :: seen) rest with
        | error e => rw [hrec] at h; cases h
        | ok p =>
          obtain ⟨cl1, vars3⟩ := p
          rw [hrec] at h
          cases h
          have hseen2 : ∀ x ∈ v :: seen, goAbs x ∈ keysOf (alStore vars (goAbs v) unassignedV) := by
            intro x hx
            rcases List.mem_cons.mp hx with hx | hx
            · subst hx; exact keysOf_alStore_self _ _ _
            · exact keysOf_alStore_superset _ _ _ _ (hseen x hx)
          obtain ⟨i1, i2, i3, i4, i5, i6⟩ := ih _ _ _ _ hrec hseen2
          refine ⟨fun k => ?_, ?_, ?_, ?_, ?_, ?_⟩
          · constructor
            · intro hk
              rcases (i1 k).mp hk with hk1 | hk2
              · rcases keysOf_alStore_sub _ _ _ _ hk1 with hk1 | hk1
                · exact Or.inl hk1
                · exact Or.inr (by simp [hk1])
              · exact Or.inr (by simp [hk2])
            · intro hk
              rcases hk with hk | hk
              · exact (i1 k).mpr (Or.inl (keysOf_alStore_superset _ _ _ _ hk))
              · simp only [List.map_cons, List.mem_cons] at hk
                rcases hk with hk | hk
                · exact (i1 k).mpr (Or.inl (hk ▸ keysOf_alStore_self _ _ _))
                · exact (i1 k).mpr (Or.inr hk)
          · intro hnd
            exact i2 (keysOf_alStore_nodup _ _ _ hnd)
          · intro x hx
            rcases List.mem_cons.mp hx with hx | hx
            · subst hx; exact hv0
            · exact i3 x hx
          · intro x hx
            rcases List.mem_cons.mp hx with hx | hx
            · subst hx; exact List.mem_cons_self _ _
            · exact List.mem_cons_of_mem _ (i4 x hx)
          · intro x hx
            rcases List.mem_cons.mp hx with hx | hx
            · subst hx; exact hvnot
            · intro hc
              exact (i5 x hx) (List.mem_cons_of_mem _ hc)
          · refine List.nodup_cons.mpr ⟨fun hc => ?_, i6⟩
            exact (i5 v hc) (List.mem_cons_self _ _)

theorem dedupProblem_ok_facts :
    ∀ (problem : List (List Int)) (vars : List (Int × Nat))
      (simp2 : List (List Int)) (vars2 : List (Int × Nat)),
      dedupProblem vars problem = .ok (simp2, vars2) →
      (∀ k, k ∈ keysOf vars2 ↔ k ∈ keysOf vars ∨ k ∈ problem.flatten.map goAbs) ∧
      ((keysOf vars).Nodup → (keysOf vars2).Nodup) ∧
      (∀ cls ∈ simp2, cls.Nodup) ∧
      (∀ cls ∈ simp2, ∀ v ∈ cls, goAbs v ∈ keysOf vars2) ∧
      (∀ v ∈ problem.flatten, v ≠ 0) := by
  intro problem
  induction problem with
  | nil =>
    intro vars simp2 vars2 h
    simp only [dedupProblem] at h
    cases h
    exact ⟨fun k => by simp, id, by simp, by simp, by simp⟩
  | cons cls rest ih =>
    intro vars simp2 vars2 h
    simp only [dedupProblem] at h
    split at h
    · cases h
    · rename_i cl1 varsA hc
      split at h
      · cases h
      · rename_i cls2 varsB hr
        cases h
        obtain ⟨c1, c2, c3, c4, c5, c6⟩ :=
          dedupClause_ok_facts cls vars [] cl1 varsA hc (by simp)
        obtain ⟨r1, r2, r3, r4, r5⟩ := ih varsA cls2 vars2 hr
        have hmono : ∀ k, k ∈ keysOf varsA → k ∈ keysOf vars2 :=
          fun k hk => (r1 k).mpr (Or.inl hk)
        refine ⟨fun k => ?_, fun hnd => r2 (c2 hnd), ?_, ?_, ?_⟩
        · constructor
          · intro hk
            rcases (r1 k).mp hk with hk1 | hk2
            · rcases (c1 k).mp hk1 with hk1 | hk1
              · exact Or.inl hk1
              · refine Or.inr ?_
                simp only [List.flatten_cons, List.map_append, List.mem_append]
                exact Or.inl hk1
            · refine Or.inr ?_
              simp only [List.flatten_cons, List.map_append, List.mem_append]
              exact Or.inr hk2
          · intro hk
            rcases hk with hk | hk
            · exact (r1 k).mpr (Or.inl ((c1 k).mpr (Or.inl hk)))
            · simp only [List.flatten_cons, List.map_append, List.mem_append] at hk
              rcases hk with hk | hk
              · exact (r1 k).mpr (Or.inl ((c1 k).mpr (Or.inr hk)))
              · exact (r1 k).mpr (Or.inr hk)
        · intro c hcm
          rcases List.mem_cons.mp hcm with hcm | hcm
          · subst hcm; exact c6
          · exact r3 c hcm
        · intro c hcm x hx
          rcases List.mem_cons.mp hcm with hcm | hcm
          · subst hcm
            exact hmono _ ((c1 (goAbs x)).mpr
              (Or.inr (List.mem_map_of_mem goAbs (c4 x hx))))
          · exact r4 c hcm x hx
        · intro x hx
          simp only [List.flatten_cons, List.mem_append] at hx
          rcases hx with hx | hx
          · exact c3 x hx
          · exact r5 x hx

theorem filterLits_untouched (vars : List (Int × Nat)) (cls : List Int) :
    (filterLits vars cls).2.2 = false → filterLits vars cls = (false, cls, false) := by
  induction cls with
  | nil => intro _; rfl
  | cons v rest ih =>
    simp only [filterLits]
    split
    · intro ht
      simp only at ht ⊢
      rw [ih ht]
    · split
      · intro ht; simp at ht
      · intro ht; simp at ht

theorem filterLits_sublist (vars : List (Int × Nat)) (cls : List Int) :
    (filterLits vars cls).2.1.Sublist cls := by
  induction cls with
  | nil => simp [filterLits]
  | cons v rest ih =>
    simp only [filterLits]
    split
    · exact List.Sublist.cons₂ v ih
    · split
      · simp
      · exact List.Sublist.cons v ih

/-- Closure of a clause list under the key set of the variable map. -/
def ClosedUnder (vars : List (Int × Nat)) (clauses : List (List Int)) : Prop :=
  ∀ cls ∈ clauses, ∀ v ∈ cls, goAbs v ∈ keysOf vars

theorem simpPass_keys (vars : List (Int × Nat)) (clauses : List (List Int)) :
    ∀ cs vars2 ch, simpPass vars clauses = .next cs vars2 ch →
      ClosedUnder vars clauses →
      keysOf vars2 = keysOf vars ∧ ClosedUnder vars2 cs ∧
      ((∀ cls ∈ clauses, cls.Nodup) → ∀ cls ∈ cs, cls.Nodup) := by
  induction clauses generalizing vars with
  | nil =>
    intro cs vars2 ch h _
    simp only [simpPass] at h
    cases h
    exact ⟨rfl, by simp [ClosedUnder], by simp⟩
  | cons cls rest ih =>
    intro cs vars2 ch h hC
    have hCrest : ClosedUnder vars rest := fun c hc => hC c (List.mem_cons_of_mem _ hc)
    match cls with
    | [] => simp [simpPass] at h
    | [v] =>
      simp only [simpPass] at h
      generalize hA : (if v < 0 then assnFalseV else assnTrueV) = A at h
      split at h
      · cases h
      · have hkmem : goAbs v ∈ keysOf vars :=
          hC [v] (List.mem_cons_self _ _) v (List.mem_cons_self _ _)
        have hkeq : keysOf (alStore vars (goAbs v) A) = keysOf vars :=
          keysOf_alStore_mem _ _ _ hkmem
        cases hrec : simpPass (alStore vars (goAbs v) A) rest with
        | unsat => rw [hrec] at h; cases h
        | next cs2 vars3 ch2 =>
          rw [hrec] at h
          simp only [PassOut.next.injEq] at h
          obtain ⟨h1, h2, h3⟩ := h
          subst h1 h2
          have hCrest2 : ClosedUnder (alStore vars (goAbs v) A) rest := by
            intro c hc x hx
            rw [hkeq]
            exact hCrest c hc x hx
          obtain ⟨k1, k2, k3⟩ := ih _ _ _ _ hrec hCrest2
          refine ⟨by rw [k1, hkeq], k2, fun hnd => k3 (fun c hc => hnd c (List.mem_cons_of_mem _ hc))⟩
    | v1 :: v2 :: tl =>
      simp only [simpPass] at h
      split at h
      · cases h
      · rename_i cs2 vars3 ch2 hrec
        obtain ⟨k1, k2, k3⟩ := ih _ _ _ _ hrec hCrest
        split at h <;> simp only [PassOut.next.injEq] at h <;>
          obtain ⟨h1, h2, h3⟩ := h <;> subst h1 <;> subst h2
        · exact ⟨k1, k2, fun hnd => k3 (fun c hc => hnd c (List.mem_cons_of_mem _ hc))⟩
        · have hsub := filterLits_sublist vars (v1 :: v2 :: tl)
          refine ⟨k1, ?_, ?_⟩
          · intro c hc x hx
            rcases List.mem_cons.mp hc with hc | hc
            · subst hc
              rw [k1]
              exact hC _ (List.mem_cons_self _ _) x (hsub.subset hx)
            · exact k2 c hc x hx
          · intro hnd c hc
            rcases List.mem_cons.mp hc with hc | hc
            · subst hc
              exact (hnd _ (List.mem_cons_self _ _)).sublist hsub
            · exact k3 (fun c2 hc2 => hnd c2 (List.mem_cons_of_mem _ hc2)) c hc

theorem simpPass_unchanged (vars : List (Int × Nat)) (clauses : List (List Int)) :
    ∀ cs vars2, simpPass vars clauses = .next cs vars2 false →
      cs = clauses ∧ vars2 = vars ∧ ∀ cls ∈ clauses, 2 ≤ cls.length := by
  induction clauses generalizing vars with
  | nil =>
    intro cs vars2 h
    simp only [simpPass] at h
    cases h
    exact ⟨rfl, rfl, by simp⟩
  | cons cls rest ih =>
    intro cs vars2 h
    match cls with
    | [] => simp [simpPass] at h
    | [v] =>
      simp only [simpPass] at h
      generalize hA : (if v < 0 then assnFalseV else assnTrueV) = A at h
      split at h
      · cases h
      · cases hrec : simpPass (alStore vars (goAbs v) A) rest with
        | unsat => rw [hrec] at h; cases h
        | next cs2 vars3 ch2 =>
          rw [hrec] at h
          simp at h
    | v1 :: v2 :: tl =>
      simp only [simpPass] at h
      split at h
      · cases h
      · rename_i cs2 vars3 ch2 hrec
        split at h
        · simp at h
        · simp only [PassOut.next.injEq] at h
          obtain ⟨h1, h2, h3⟩ := h
          have hch : ch2 = false ∧ (filterLits vars (v1 :: v2 :: tl)).2.2 = false := by
            constructor
            · cases ch2 <;> simp_all
            · cases hq : (filterLits vars (v1 :: v2 :: tl)).2.2 <;> simp_all
          obtain ⟨e1, e2, e3⟩ := ih _ _ _ (hch.1 ▸ hrec)
          have huntouched := filterLits_untouched vars (v1 :: v2 :: tl) hch.2
          subst e1 e2
          rw [huntouched] at h1
          refine ⟨by rw [← h1], h2.symm, ?_⟩
          intro c hc
          rcases List.mem_cons.mp hc with hc | hc
          · subst hc; simp
          · exact e3 c hc

/-- The state of the simplifier fixpoint loop after `n` change-reporting
passes: the variable map and clause list at the top of the (n+1)-th
iteration, or `none` when the loop has stopped before that point. -/
def loopSteps : Nat → List (Int × Nat) → List (List Int) →
    Option (List (Int × Nat) × List (List Int))
  | 0, vars, clauses => some (vars, clauses)
  | n + 1, vars, clauses =>
    if clauses = [] then none
    else
      match simpPass vars clauses with
      | .unsat => none
      | .next cs vars2 changed => if changed then loopSteps n vars2 cs else none

/-- The unit-clause assignments a pass records while scanning a clause-list
prefix (non-unit clauses leave the map unchanged). -/
def unitsOf (vars : List (Int × Nat)) : List (List Int) → List (Int × Nat)
  | [] => vars
  | cls :: rest =>
    match cls with
    | [v] => unitsOf (alStore vars (goAbs v) (if v < 0 then assnFalseV else assnTrueV)) rest
    | _ => unitsOf vars rest

/-- The clause `c` stops a pass: it is empty, or it is a unit clause whose
variable is already forced to the opposite value in the map `vs`. -/
def blockedAt (vs : List (Int × Nat)) (c : List Int) : Prop :=
  c = [] ∨ ∃ v, c = [v] ∧
    (alLookup vs (goAbs v)).getD unassignedV ≠ unassignedV ∧
    (alLookup vs (goAbs v)).getD unassignedV ≠ (if v < 0 then assnFalseV else assnTrueV)

theorem simpPass_append_unsat (c : List Int) (post : List (List Int)) :
    ∀ (pre : List (List Int)) (vars : List (Int × Nat)),
      blockedAt (unitsOf vars pre) c →
      simpPass vars (pre ++ c :: post) = .unsat := by
  intro pre
  induction pre with
  | nil =>
    intro vars hblk
    rcases hblk with hblk | ⟨v, hcv, hb1, hb2⟩
    · subst hblk; rfl
    · subst hcv
      rw [show unitsOf vars [] = vars from rfl] at hb1 hb2
      have hcond : (((alLookup vars (goAbs v)).getD unassignedV != unassignedV) &&
          ((alLookup vars (goAbs v)).getD unassignedV !=
            (if v < 0 then assnFalseV else assnTrueV))) = true := by
        simp only [Bool.and_eq_true, bne_iff_ne, ne_eq]
        exact ⟨hb1, hb2⟩
      simp only [List.nil_append, simpPass, hcond]
      rfl
  | cons pre1 preRest ih =>
    intro vars hblk
    match pre1 with
    | [] => rfl
    | [v] =>
      have hblk2 : blockedAt
          (unitsOf (alStore vars (goAbs v) (if v < 0 then assnFalseV else assnTrueV)) preRest)
          c := hblk
      show simpPass vars ([v] :: (preRest ++ c :: post)) = .unsat
      simp only [simpPass]
      generalize hA : (if v < 0 then assnFalseV else assnTrueV) = A at hblk2 ⊢
      have htail := ih (alStore vars (goAbs v) A) hblk2
      split
      · rfl
      · rw [htail]
    | w1 :: w2 :: wl =>
      have htail := ih vars
        (by
          rw [show unitsOf vars preRest = unitsOf vars ((w1 :: w2 :: wl) :: preRest) from rfl]
          exact hblk)
      show simpPass vars ((w1 :: w2 :: wl) :: (preRest ++ c :: post)) = .unsat
      simp only [simpPass]
      rw [htail]

theorem simpPass_unsat_iff (vars : List (Int × Nat)) (clauses : List (List Int)) :
    simpPass vars clauses = .unsat ↔
      ∃ pre c post, clauses = pre ++ c :: post ∧ blockedAt (unitsOf vars pre) c := by
  constructor
  · intro h
    induction clauses generalizing vars with
    | nil => cases h
    | cons cls rest ih =>
      match cls with
      | [] => exact ⟨[], [], rest, rfl, Or.inl rfl⟩
      | [v] =>
        simp only [simpPass] at h
        generalize hA : (if v < 0 then assnFalseV else assnTrueV) = A at h
        split at h
        · rename_i hb
          refine ⟨[], [v], rest, rfl, Or.inr ⟨v, rfl, ?_⟩⟩
          rw [show unitsOf vars [] = vars from rfl, hA]
          simpa [Bool.and_eq_true, ne_eq, bne_iff_ne] using hb
        · cases hrec : simpPass (alStore vars (goAbs v) A) rest with
          | unsat =>
            obtain ⟨pre, c, post, hsplit, hblk⟩ := ih _ hrec
            refine ⟨[v] :: pre, c, post, by rw [hsplit]; rfl, ?_⟩
            rw [show unitsOf vars ([v] :: pre) =
              unitsOf (alStore vars (goAbs v) (if v < 0 then assnFalseV else assnTrueV)) pre from rfl]
            rw [hA]
            exact hblk
          | next cs2 vars3 ch2 => rw [hrec] at h; cases h
      | v1 :: v2 :: tl =>
        simp only [simpPass] at h
        split at h
        · rename_i hrec
          obtain ⟨pre, c, post, hsplit, hblk⟩ := ih _ hrec
          refine ⟨(v1 :: v2 :: tl) :: pre, c, post, by rw [hsplit]; rfl, ?_⟩
          rw [show unitsOf vars ((v1 :: v2 :: tl) :: pre) = unitsOf vars pre from rfl]
          exact hblk
        · rename_i cs2 vars3 ch2 hrec
          split at h <;> cases h
  · rintro ⟨pre, c, post, hsplit, hblk⟩
    rw [hsplit]
    exact simpPass_append_unsat c post pre vars hblk

theorem keysOf_defaultTrue (vars : List (Int × Nat)) :
    keysOf (defaultTrue vars) = keysOf vars := by
  induction vars with
  | nil => rfl
  | cons p rest ih =>
    simp only [defaultTrue, keysOf, List.map_cons] at ih ⊢
    split <;> simp [ih]

theorem defaultTrue_no_unassigned (vars : List (Int × Nat)) :
    ∀ p ∈ defaultTrue vars, p.2 ≠ unassignedV := by
  intro p hp
  simp only [defaultTrue, List.mem_map] at hp
  obtain ⟨q, _, hq⟩ := hp
  split at hq
  · rw [← hq]; simp [assnTrueV, unassignedV]
  · rename_i hne
    rw [← hq]; exact hne

theorem simpLoopF_eq_unsat (f : Nat) (vars : List (Int × Nat))
    (clauses : List (List Int)) (h : clauses ≠ [])
    (hp : simpPass vars clauses = .unsat) :
    simpLoopF (f + 1) vars clauses = ⟨vars, clauses, assnFalseV⟩ := by
  simp only [simpLoopF, if_neg h, hp]

theorem simpLoopF_eq_next (f : Nat) (vars : List (Int × Nat))
    (clauses : List (List Int)) (cs : List (List Int))
    (vars2 : List (Int × Nat)) (ch : Bool) (h : clauses ≠ [])
    (hp : simpPass vars clauses = .next cs vars2 ch) :
    simpLoopF (f + 1) vars clauses =
      if ch then simpLoopF f vars2 cs else ⟨vars2, cs, unassignedV⟩ := by
  simp only [simpLoopF, if_neg h, hp]

theorem simpLoopF_facts :
    ∀ (fuel : Nat) (vars : List (Int × Nat)) (clauses : List (List Int)),
      simpMeasure clauses < fuel →
      ClosedUnder vars clauses →
      (∀ cls ∈ clauses, cls.Nodup) →
      keysOf (simpLoopF fuel vars clauses).vars = keysOf vars ∧
      ((simpLoopF fuel vars clauses).simpleSat = assnFalseV ↔
        ∃ n vs cs, loopSteps n vars clauses = some (vs, cs) ∧ cs ≠ [] ∧
          simpPass vs cs = .unsat) ∧
      ((simpLoopF fuel vars clauses).simpleSat = assnTrueV ↔
        ∃ n vs, loopSteps n vars clauses = some (vs, [])) ∧
      ((simpLoopF fuel vars clauses).simpleSat = assnTrueV →
        (simpLoopF fuel vars clauses).simplified = [] ∧
        ∃ n vs, loopSteps n vars clauses = some (vs, []) ∧
          (simpLoopF fuel vars clauses).vars = defaultTrue vs) ∧
      ((simpLoopF fuel vars clauses).simpleSat = unassignedV →
        ∀ cls ∈ (simpLoopF fuel vars clauses).simplified,
          2 ≤ cls.length ∧ cls.Nodup) := by
  intro fuel
  induction fuel with
  | zero => intro vars clauses hm; omega
  | succ f ih =>
    intro vars clauses hm hC hN
    by_cases hemp : clauses = []
    · subst hemp
      simp only [simpLoopF, if_pos rfl]
      refine ⟨keysOf_defaultTrue vars, ?_, ?_, ?_, ?_⟩
      · constructor
        · intro h; exact absurd (show assnTrueV = assnFalseV from h) (by decide)
        · rintro ⟨n, vs, cs, hstep, hne, -⟩
          match n, hstep with
          | 0, hstep =>
            simp only [loopSteps] at hstep
            cases hstep
            exact absurd rfl hne
          | n + 1, hstep => simp [loopSteps] at hstep
      · constructor
        · intro _; exact ⟨0, vars, rfl⟩
        · intro _; rfl
      · intro _
        exact ⟨rfl, 0, vars, rfl, rfl⟩
      · intro h
        exact absurd (show assnTrueV = unassignedV from h) (by decide)
    · cases hp : simpPass vars clauses with
      | unsat =>
        rw [simpLoopF_eq_unsat f vars clauses hemp hp]
        refine ⟨rfl, ?_, ?_, ?_, ?_⟩
        · constructor
          · intro _; exact ⟨0, vars, clauses, rfl, hemp, hp⟩
          · intro _; rfl
        · constructor
          · intro h; exact absurd (show assnFalseV = assnTrueV from h) (by decide)
          · rintro ⟨n, vs, hstep⟩
            match n, hstep with
            | 0, hstep =>
              simp only [loopSteps] at hstep
              cases hstep
              exact absurd rfl hemp
            | n + 1, hstep =>
              simp [loopSteps, hemp, hp] at hstep
        · intro h; exact absurd (show assnFalseV = assnTrueV from h) (by decide)
        · intro h; exact absurd (show assnFalseV = unassignedV from h) (by decide)
      | next cs vars2 changed =>
        cases changed with
        | true =>
          have hshift : ∀ n, loopSteps (n + 1) vars clauses = loopSteps n vars2 cs := by
            intro n
            simp only [loopSteps, if_neg hemp, hp, if_pos]
          have hlt := simpPass_measure_lt vars clauses cs vars2 hp
          obtain ⟨k1, k2, k3⟩ := simpPass_keys vars clauses cs vars2 true hp hC
          obtain ⟨j1, j2, j3, j4, j5⟩ := ih vars2 cs (by omega) k2 (k3 hN)
          rw [simpLoopF_eq_next f vars clauses cs vars2 true hemp hp, if_pos rfl]
          refine ⟨by rw [j1, k1], ?_, ?_, ?_, j5⟩
          · rw [j2]
            constructor
            · rintro ⟨n, vs, cs2, hstep, hne, hun⟩
              exact ⟨n + 1, vs, cs2, by rw [hshift n]; exact hstep, hne, hun⟩
            · rintro ⟨n, vs, cs2, hstep, hne, hun⟩
              match n, hstep with
              | 0, hstep =>
                simp only [loopSteps, Option.some.injEq, Prod.mk.injEq] at hstep
                rw [← hstep.1, ← hstep.2] at hun
                rw [hp] at hun
                cases hun
              | n + 1, hstep =>
                rw [hshift n] at hstep
                exact ⟨n, vs, cs2, hstep, hne, hun⟩
          · rw [j3]
            constructor
            · rintro ⟨n, vs, hstep⟩
              exact ⟨n + 1, vs, by rw [hshift n]; exact hstep⟩
            · rintro ⟨n, vs, hstep⟩
              match n, hstep with
              | 0, hstep =>
                simp only [loopSteps, Option.some.injEq, Prod.mk.injEq] at hstep
                exact absurd hstep.2 hemp
              | n + 1, hstep =>
                rw [hshift n] at hstep
                exact ⟨n, vs, hstep⟩
          · intro hT
            obtain ⟨d1, n, vs, hstep, d3⟩ := j4 hT
            exact ⟨d1, n + 1, vs, by rw [hshift n]; exact hstep, d3⟩
        | false =>
          obtain ⟨e1, e2, e3⟩ := simpPass_unchanged vars clauses cs vars2 hp
          subst e1
          subst e2
          rw [simpLoopF_eq_next f vars2 cs cs vars2 false hemp hp,
            if_neg (by simp)]
          refine ⟨rfl, ?_, ?_, ?_, ?_⟩
          · constructor
            · intro h; exact absurd (show unassignedV = assnFalseV from h) (by decide)
            · rintro ⟨n, vs, cs2, hstep, hne, hun⟩
              match n, hstep with
              | 0, hstep =>
                simp only [loopSteps, Option.some.injEq, Prod.mk.injEq] at hstep
                rw [← hstep.1, ← hstep.2] at hun
                rw [hp] at hun
                cases hun
              | n + 1, hstep =>
                simp [loopSteps, hemp, hp] at hstep
          · constructor
            · intro h; exact absurd (show unassignedV = assnTrueV from h) (by decide)
            · rintro ⟨n, vs, hstep⟩
              match n, hstep with
              | 0, hstep =>
                simp only [loopSteps, Option.some.injEq, Prod.mk.injEq] at hstep
                exact absurd hstep.2 hemp
              | n + 1, hstep =>
                simp [loopSteps, hemp, hp] at hstep
          · intro h; exact absurd (show unassignedV = assnTrueV from h) (by decide)
          · intro _ cls hcls
            exact ⟨e3 cls hcls, hN cls hcls⟩

/-- C7: the simplifier contract.  For every problem the dedup pass accepts,
the simplifier reports trivially-UNSAT exactly when some iterate of the
fixpoint loop is stopped by a pass that meets an empty clause or a unit
clause contradicting an already-forced value (`simpPass_unsat_iff` spells
out that a pass reports UNSAT exactly in those two situations); it reports
trivially-SAT exactly when some iterate reaches an empty clause list, in
which case the output clause list is empty, the final variable map is the
defaulting of the loop state (every still-unassigned variable set to TRUE)
and no variable is left unassigned; and otherwise every clause of the
reduced output has at least two literals and no duplicate literals. -/
theorem C7_simplifier_contract :
    ∀ (problem : List (List Int)) (st : SimpState),
      simplifyCore problem = .ok st →
      ∃ simplified0 vars0,
        dedupProblem [] problem = .ok (simplified0, vars0) ∧
        ((st.simpleSat = assnFalseV ↔
          ∃ n vs cs, loopSteps n vars0 simplified0 = some (vs, cs) ∧ cs ≠ [] ∧
            simpPass vs cs = .unsat) ∧
         (∀ (vs : List (Int × Nat)) (cs : List (List Int)),
           simpPass vs cs = .unsat ↔
             ∃ pre c post, cs = pre ++ c :: post ∧ blockedAt (unitsOf vs pre) c) ∧
         (st.simpleSat = assnTrueV ↔
           ∃ n vs, loopSteps n vars0 simplified0 = some (vs, [])) ∧
         (st.simpleSat = assnTrueV → st.simplified = [] ∧
           ∃ n vs, loopSteps n vars0 simplified0 = some (vs, []) ∧
             st.vars = defaultTrue vs ∧ ∀ p ∈ st.vars, p.2 ≠ unassignedV) ∧
         (st.simpleSat = unassignedV →
           ∀ cls ∈ st.simplified, 2 ≤ cls.length ∧ cls.Nodup)) := by
  intro problem st h
  simp only [simplifyCore] at h
  cases hd : dedupProblem [] problem with
  | error e => rw [hd] at h; cases h
  | ok p =>
    obtain ⟨simplified0, vars0⟩ := p
    rw [hd] at h
    simp only [Except.ok.injEq] at h
    obtain ⟨d1, d2, d3, d4, d5⟩ := dedupProblem_ok_facts problem [] simplified0 vars0 hd
    have hC : ClosedUnder vars0 simplified0 := d4
    obtain ⟨f1, f2, f3, f4, f5⟩ :=
      simpLoopF_facts (simpMeasure simplified0 + 1) vars0 simplified0
        (by omega) hC d3
    rw [show simpLoop vars0 simplified0 =
      simpLoopF (simpMeasure simplified0 + 1) vars0 simplified0 from rfl] at h
    subst h
    refine ⟨simplified0, vars0, rfl, f2, fun vs cs => simpPass_unsat_iff vs cs, f3, ?_, f5⟩
    intro hT
    obtain ⟨g1, n, vs, hstep, g3⟩ := f4 hT
    refine ⟨g1, n, vs, hstep, g3, ?_⟩
    rw [g3]
    exact defaultTrue_no_unassigned vs

/-- Witness for C7 at the concrete problem `[[1]]`, which the simplifier
settles as trivially SAT with variable 1 assigned TRUE. -/
theorem C7_simplifier_contract_witness :
    ∃ simplified0 vars0,
      dedupProblem [] [[(1 : Int)]] = .ok (simplified0, vars0) ∧
      (((⟨[(1, assnTrueV)], [], assnTrueV⟩ : SimpState).simpleSat = assnFalseV ↔
        ∃ n vs cs, loopSteps n vars0 simplified0 = some (vs, cs) ∧ cs ≠ [] ∧
          simpPass vs cs = .unsat) ∧
       (∀ (vs : List (Int × Nat)) (cs : List (List Int)),
         simpPass vs cs = .unsat ↔
           ∃ pre c post, cs = pre ++ c :: post ∧ blockedAt (unitsOf vs pre) c) ∧
       ((⟨[(1, assnTrueV)], [], assnTrueV⟩ : SimpState).simpleSat = assnTrueV ↔
         ∃ n vs, loopSteps n vars0 simplified0 = some (vs, [])) ∧
       ((⟨[(1, assnTrueV)], [], assnTrueV⟩ : SimpState).simpleSat = assnTrueV →
         (⟨[(1, assnTrueV)], [], assnTrueV⟩ : SimpState).simplified = [] ∧
         ∃ n vs, loopSteps n vars0 simplified0 = some (vs, []) ∧
           (⟨[(1, assnTrueV)], [], assnTrueV⟩ : SimpState).vars = defaultTrue vs ∧
           ∀ p ∈ (⟨[(1, assnTrueV)], [], assnTrueV⟩ : SimpState).vars,
             p.2 ≠ unassignedV) ∧
       ((⟨[(1, assnTrueV)], [], assnTrueV⟩ : SimpState).simpleSat = unassignedV →
         ∀ cls ∈ (⟨[(1, assnTrueV)], [], assnTrueV⟩ : SimpState).simplified,
           2 ≤ cls.length ∧ cls.Nodup)) :=
  C7_simplifier_contract [[(1 : Int)]] ⟨[(1, assnTrueV)], [], assnTrueV⟩ rfl

theorem sorted_pairs_unique :
    ∀ (l1 l2 : List (Int × Nat)), l1.Perm l2 → l1.Sorted pairLe →
      l2.Sorted pairLe → (l1.map Prod.fst).Nodup → l1 = l2 := by
  intro l1
  induction l1 with
  | nil =>
    intro l2 hp _ _ _
    exact (hp.symm.eq_nil).symm
  | cons a l1 ih =>
    intro l2 hp hs1 hs2 hnd
    match l2 with
    | [] => exact absurd hp.eq_nil (by simp)
    | b :: l2 =>
      have hab : a = b := by
        by_contra hne
        have ha2 : a ∈ b :: l2 := hp.subset (List.mem_cons_self _ _)
        have hb1 : b ∈ a :: l1 := hp.symm.subset (List.mem_cons_self _ _)
        have ha2' : a ∈ l2 := by
          rcases List.mem_cons.mp ha2 with h | h
          · exact absurd h hne
          · exact h
        have hb1' : b ∈ l1 := by
          rcases List.mem_cons.mp hb1 with h | h
          · exact absurd h.symm hne
          · exact h
        have h1 : pairLe a b := (List.sorted_cons.mp hs1).1 b hb1'
        have h2 : pairLe b a := (List.sorted_cons.mp hs2).1 a ha2'
        have hkey : a.1 = b.1 := le_antisymm h1 h2
        have : a.1 ∈ l1.map Prod.fst := by
          rw [hkey]
          exact List.mem_map_of_mem Prod.fst hb1'
        exact (List.nodup_cons.mp (by simpa using hnd)).1 this
      subst hab
      have htl := hp.cons_inv
      have := ih l2 htl (List.sorted_cons.mp hs1).2 (List.sorted_cons.mp hs2).2
        (List.nodup_cons.mp (by simpa using hnd)).2
      rw [this]

theorem sortPairs_eq_of_perm (base o1 o2 : List (Int × Nat))
    (h1 : o1.Perm base) (h2 : o2.Perm base)
    (hnd : (base.map Prod.fst).Nodup) : sortPairs o1 = sortPairs o2 := by
  have hp : (sortPairs o1).Perm (sortPairs o2) :=
    ((List.perm_insertionSort pairLe o1).trans (h1.trans h2.symm)).trans
      (List.perm_insertionSort pairLe o2).symm
  have hper : (sortPairs o1).Perm base := (List.perm_insertionSort pairLe o1).trans h1
  exact sorted_pairs_unique (sortPairs o1) (sortPairs o2) hp
    (List.sorted_insertionSort pairLe o1)
    (List.sorted_insertionSort pairLe o2)
    ((hper.map Prod.fst).nodup_iff.mpr hnd)

theorem simplifyCore_keys_nodup (problem : List (List Int)) (st : SimpState)
    (h : simplifyCore problem = .ok st) : (keysOf st.vars).Nodup := by
  simp only [simplifyCore] at h
  cases hd : dedupProblem [] problem with
  | error e => rw [hd] at h; cases h
  | ok p =>
    obtain ⟨simplified0, vars0⟩ := p
    rw [hd] at h
    simp only [Except.ok.injEq] at h
    obtain ⟨d1, d2, d3, d4, d5⟩ := dedupProblem_ok_facts problem [] simplified0 vars0 hd
    obtain ⟨f1, -, -, -, -⟩ :=
      simpLoopF_facts (simpMeasure simplified0 + 1) vars0 simplified0
        (by omega) d4 d3
    rw [show simpLoop vars0 simplified0 =
      simpLoopF (simpMeasure simplified0 + 1) vars0 simplified0 from rfl] at h
    subst h
    rw [f1]
    exact d2 (by simp [keysOf])

/-- C10: determinism.  The only influence of the arbitrary Go map iteration
order on a run of `Solve` is the order in which `simplify` ranges over the
final variable map when it builds `sourceVars` (saturday.go lines 262-264),
and that list is immediately sorted by source variable; because the keys are
pairwise distinct, any two iteration orders sort to the same slice, so two
runs on the same problem return identical assignments, stats and sat flags
for every fuel. -/
theorem C10_determinism :
    ∀ (fuel : Nat) (problem : List (List Int)) (st : SimpState)
      (o1 o2 : List (Int × Nat)),
      simplifyCore problem = .ok st →
      o1.Perm st.vars → o2.Perm st.vars →
      solveGoO fuel problem o1 = solveGoO fuel problem o2 := by
  intro fuel problem st o1 o2 hcore hp1 hp2
  have hsort : sortPairs o1 = sortPairs o2 :=
    sortPairs_eq_of_perm st.vars o1 o2 hp1 hp2 (simplifyCore_keys_nodup problem st hcore)
  have hns : newSolverO problem o1 = newSolverO problem o2 := by
    unfold newSolverO
    rw [hsort]
  unfold solveGoO
  rw [hns]

/-- Witness for C10 at the concrete problem `[[1,2],[-1,2]]` with two
different iteration orders over the variable map. -/
theorem C10_determinism_witness :
    solveGoO 5 [[(1 : Int), 2], [-1, 2]] [(1, unassignedV), (2, unassignedV)] =
      solveGoO 5 [[(1 : Int), 2], [-1, 2]] [(2, unassignedV), (1, unassignedV)] :=
  C10_determinism 5 [[(1 : Int), 2], [-1, 2]]
    ⟨[(1, unassignedV), (2, unassignedV)], [[(1 : Int), 2], [-1, 2]], unassignedV⟩
    [(1, unassignedV), (2, unassignedV)] [(2, unassignedV), (1, unassignedV)]
    rfl (by decide) (by decide)

/-! ## The search never touches `sourceVars`

The decision/propagation/backtracking loop mutates only the internal solver
state; the `sourceVars` slice built by `simplify` is read again only by the
solution extraction of `Solve`.  The following lemmas track that field
through every operation of the search. -/

theorem pushUnassigned_sourceVars (sv : Solver) (lit : Nat) (sv2 : Solver)
    (h : pushUnassigned sv lit = .ok sv2) : sv2.sourceVars = sv.sourceVars := by
  simp only [pushUnassigned] at h
  split at h
  · cases h
  · cases h; rfl

theorem deleteUnassigned_sourceVars (sv : Solver) (lit : Nat) (sv2 : Solver)
    (h : deleteUnassigned sv lit = .ok sv2) : sv2.sourceVars = sv.sourceVars := by
  simp only [deleteUnassigned] at h
  split at h
  · cases h; rfl
  · cases h

theorem updateUnassigned_sourceVars (sv : Solver) (lit : Nat) :
    (updateUnassigned sv lit).sourceVars = sv.sourceVars := by
  simp only [updateUnassigned]
  split <;> rfl

theorem popUnassigned_sourceVars (sv : Solver) (lit : Nat) (sv2 : Solver)
    (h : popUnassigned sv = some (lit, sv2)) : sv2.sourceVars = sv.sourceVars := by
  simp only [popUnassigned] at h
  split at h
  · cases h
  · simp only [Option.some.injEq, Prod.mk.injEq] at h
    rw [← h.2]

theorem rollbackF_sourceVars :
    ∀ (fuel : Nat) (stop : Nat) (sv : Solver) (i : Nat) (sv2 : Solver),
      rollbackF stop fuel sv i = .ok sv2 → sv2.sourceVars = sv.sourceVars := by
  intro fuel
  induction fuel with
  | zero => intro stop sv i sv2 h; cases h; rfl
  | succ f ih =>
    intro stop sv i sv2 h
    simp only [rollbackF] at h
    split at h
    · cases hpu : pushUnassigned sv (sv.implications.getD i 0) with
      | error e => rw [hpu] at h; cases h
      | ok sv3 =>
        rw [hpu] at h
        have h1 := ih _ _ _ _ h
        have h2 := pushUnassigned_sourceVars _ _ _ hpu
        rw [h1]
        exact h2
    · cases h; rfl

theorem resolveConflict_sourceVars (sv : Solver) (sv2 : Solver) (b : Bool)
    (h : resolveConflict sv = .ok (sv2, b)) : sv2.sourceVars = sv.sourceVars := by
  simp only [resolveConflict] at h
  split at h
  · simp only [Except.ok.injEq, Prod.mk.injEq] at h
    rw [← h.1]
  · rename_i di hdi
    cases hrb : rollbackGo sv (sv.decisions.getD di (0, 0)).1
        (sv.implications.length - 1) with
    | error e => rw [hrb] at h; cases h
    | ok sv3 =>
      rw [hrb] at h
      simp only [Except.ok.injEq, Prod.mk.injEq] at h
      have hsv3 : sv3.sourceVars = sv.sourceVars :=
        rollbackF_sourceVars _ _ _ _ sv3 hrb
      rw [← h.1]
      exact hsv3

theorem runDecide_sourceVars (sv : Solver) (sv2 : Solver) (lit : Nat)
    (h : runDecide sv = some (.ok (sv2, lit))) : sv2.sourceVars = sv.sourceVars := by
  simp only [runDecide] at h
  split at h
  · cases h
  · rename_i l svp hpop
    split at h
    · cases h
    · rename_i svd hdel
      simp only [Option.some.injEq, Except.ok.injEq, Prod.mk.injEq] at h
      have hsvd : svd.sourceVars = sv.sourceVars := by
        rw [deleteUnassigned_sourceVars _ _ _ hdel]
        exact popUnassigned_sourceVars _ _ _ hpop
      rw [← h.1]
      exact hsvd

theorem watchesLoop_sourceVars :
    ∀ (fuel : Nat) (sv : Solver) (neg i : Nat) (sv2 : Solver) (b : Bool),
      watchesLoop fuel sv neg i = .ok (sv2, b) → sv2.sourceVars = sv.sourceVars := by
  intro fuel
  induction fuel with
  | zero => intro sv neg i sv2 b h; cases h
  | succ f ih =>
    intro sv neg i sv2 b h
    simp only [watchesLoop] at h
    split at h
    · split at h
      · -- canonicalization: both shapes of `lits` behave identically
        split at h <;>
        · split at h
          · have h2 := ih _ _ _ _ _ h
            exact h2
          · split at h
            · have h2 := ih _ _ _ _ _ h
              rw [h2]
              split
              · rw [updateUnassigned_sourceVars]
              · rfl
            · split at h
              · simp only [Out.ok.injEq, Prod.mk.injEq] at h
                rw [← h.1]
              · split at h
                · cases h
                · rename_i svd hdel
                  have h2 := ih _ _ _ _ _ h
                  have h3 := deleteUnassigned_sourceVars _ _ _ hdel
                  exact h2.trans h3
      · cases h
    · simp only [Out.ok.injEq, Prod.mk.injEq] at h
      rw [← h.1]

theorem processImps_sourceVars :
    ∀ (imps : List Nat) (fuel : Nat) (sv : Solver) (sv2 : Solver) (b : Bool),
      processImps fuel sv imps = .ok (sv2, b) → sv2.sourceVars = sv.sourceVars := by
  intro imps
  induction imps with
  | nil =>
    intro fuel sv sv2 b h
    simp only [processImps, Out.ok.injEq, Prod.mk.injEq] at h
    rw [← h.1]
  | cons l rest ih =>
    intro fuel sv sv2 b h
    simp only [processImps] at h
    split at h
    · cases h
    · cases h
    · rename_i svw hw
      have h1 := ih _ _ _ _ h
      have h2 := watchesLoop_sourceVars _ _ _ _ _ _ hw
      exact h1.trans h2
    · rename_i svw hw
      simp only [Out.ok.injEq, Prod.mk.injEq] at h
      have h2 := watchesLoop_sourceVars _ _ _ _ _ _ hw
      rw [← h.1]
      exact h2

theorem bcpLoop_sourceVars :
    ∀ (fuel : Nat) (sv : Solver) (sv2 : Solver) (b : Bool),
      bcpLoop fuel sv = .ok (sv2, b) → sv2.sourceVars = sv.sourceVars := by
  intro fuel
  induction fuel with
  | zero => intro sv sv2 b h; cases h
  | succ f ih =>
    intro sv sv2 b h
    simp only [bcpLoop] at h
    split at h
    · simp only [Out.ok.injEq, Prod.mk.injEq] at h
      rw [← h.1]
    · split at h
      · rename_i svr heq
        have h2 := ih _ _ _ h
        have h3 := processImps_sourceVars _ _ _ _ _ heq
        exact h2.trans h3
      · have h2 := processImps_sourceVars _ _ _ _ _ h
        exact h2

theorem bcpFix_sourceVars :
    ∀ (fuel : Nat) (sv : Solver) (sv2 : Solver) (b : Bool),
      bcpFix fuel sv = .ok (sv2, b) → sv2.sourceVars = sv.sourceVars := by
  intro fuel
  induction fuel with
  | zero => intro sv sv2 b h; cases h
  | succ f ih =>
    intro sv sv2 b h
    simp only [bcpFix] at h
    split at h
    · rename_i svb heq
      simp only [Out.ok.injEq, Prod.mk.injEq] at h
      rw [← h.1]
      exact bcpLoop_sourceVars _ _ _ _ heq
    · rename_i svb heq
      have h2 := bcpLoop_sourceVars _ _ _ _ heq
      split at h
      · cases h
      · rename_i svc hrc
        simp only [Out.ok.injEq, Prod.mk.injEq] at h
        have h3 := resolveConflict_sourceVars _ _ _ hrc
        rw [← h.1]
        exact h3.trans h2
      · rename_i svc hrc
        have h3 := resolveConflict_sourceVars _ _ _ hrc
        have h4 := ih _ _ _ h
        exact (h4.trans h3).trans h2
    · exact bcpLoop_sourceVars _ _ _ _ h

theorem solveLoop_sourceVars :
    ∀ (fuel : Nat) (sv : Solver) (sv2 : Solver) (b : Bool),
      solveLoop fuel sv = .ok (sv2, b) → sv2.sourceVars = sv.sourceVars := by
  intro fuel
  induction fuel with
  | zero => intro sv sv2 b h; cases h
  | succ f ih =>
    intro sv sv2 b h
    simp only [solveLoop] at h
    split at h
    · simp only [Out.ok.injEq, Prod.mk.injEq] at h
      rw [← h.1]
    · cases h
    · rename_i svd lit hrd
      have h2 := runDecide_sourceVars _ _ _ hrd
      split at h
      · rename_i svb heq
        have h3 := bcpFix_sourceVars _ _ _ _ heq
        have h4 := ih _ _ _ h
        exact ((h4.trans h3).trans h2)
      · rename_i svb heq
        simp only [Out.ok.injEq, Prod.mk.injEq] at h
        have h3 := bcpFix_sourceVars _ _ _ _ heq
        rw [← h.1]
        exact h3.trans h2
      · have h3 := bcpFix_sourceVars _ _ _ _ h
        exact h3.trans h2

theorem solveGo_sourceVars (fuel : Nat) (sv : Solver) (sv2 : Solver) (b : Bool)
    (h : solveGo fuel sv = .ok (sv2, b)) : sv2.sourceVars = sv.sourceVars := by
  simp only [solveGo] at h
  split at h
  · simp only [Out.ok.injEq, Prod.mk.injEq] at h
    rw [← h.1]
  · split at h
    · simp only [Out.ok.injEq, Prod.mk.injEq] at h
      rw [← h.1]
    · exact solveLoop_sourceVars _ _ _ _ h
/-! ## C6: totality and format of the returned assignment

`Solve` builds the solution by walking `sv.sourceVars` (one entry per
distinct input variable, sorted ascending by `simplify`) and emitting
`+v` or `-v` according to the final assignment of each entry; the search
itself never touches `sourceVars`. -/

/-- The final solver state of a run of Go `Solve` that reached the
solution-extraction phase (saturday.go line 298 onwards). -/
def finalStateOfO (fuel : Nat) (problem : List (List Int))
    (order : List (Int × Nat)) : Option Solver :=
  match newSolverO problem order with
  | .error _ => none
  | .ok sv =>
    match solveGo fuel sv with
    | .ok (sv2, _) => some sv2
    | _ => none

/-- The assignment slice of a normally returning run. -/
def assignmentOf : Out GoOutput → List Int
  | .ok out => out.assignment
  | _ => []

/-- The assignment value `Solve` reads for one source variable
(saturday.go lines 302-305): the simplifier's value if it assigned the
variable, otherwise the masked search assignment at its internal index. -/
def resolvedAssn (sv : Solver) (s : SourceVar) : Nat :=
  if s.assn = unassignedV then (sv.assignments.getD s.i 0) &&& 3
  else s.assn

theorem goAbs_pos (v : Int) (h : v ≠ 0) : 1 ≤ goAbs v := by
  unfold goAbs
  split <;> omega

theorem pushUnassigned_simpleSat (sv : Solver) (lit : Nat) (sv2 : Solver)
    (h : pushUnassigned sv lit = .ok sv2) : sv2.simpleSat = sv.simpleSat := by
  simp only [pushUnassigned] at h
  split at h
  · cases h
  · cases h; rfl

theorem initHeapGo_facts :
    ∀ (lits : List Nat) (sv sv2 : Solver), initHeapGo sv lits = .ok sv2 →
      sv2.sourceVars = sv.sourceVars ∧ sv2.simpleSat = sv.simpleSat := by
  intro lits
  induction lits with
  | nil =>
    intro sv sv2 h
    simp only [initHeapGo, Except.ok.injEq] at h
    subst h
    exact ⟨rfl, rfl⟩
  | cons lit rest ih =>
    intro sv sv2 h
    simp only [initHeapGo] at h
    split at h
    · split at h
      · cases h
      · rename_i svp hp
        obtain ⟨h1, h2⟩ := ih _ _ h
        have h3 := pushUnassigned_sourceVars _ _ _ hp
        have h4 := pushUnassigned_simpleSat _ _ _ hp
        exact ⟨h1.trans h3, h2.trans h4⟩
    · exact ih _ _ h

theorem map_v_map_reindex (f : SourceVar → SourceVar)
    (hf : ∀ s, (f s).v = s.v) :
    ∀ (l : List SourceVar),
      (l.map f).map (fun s => s.v) = l.map (fun s => s.v) := by
  intro l
  induction l with
  | nil => rfl
  | cons s rest ih => simp only [List.map_cons, hf, ih]

theorem newSolverO_facts (problem : List (List Int)) (order : List (Int × Nat))
    (sv : Solver) (h : newSolverO problem order = .ok sv) :
    ∃ st, simplifyCore problem = .ok st ∧ sv.simpleSat = st.simpleSat ∧
      (st.simpleSat ≠ assnFalseV →
        sv.sourceVars.map (fun s => s.v) = (sortPairs order).map Prod.fst) := by
  simp only [newSolverO] at h
  split at h
  · cases h
  · rename_i st heq
    refine ⟨st, heq, ?_⟩
    split at h
    · simp only [Except.ok.injEq] at h
      subst h
      refine ⟨rfl, ?_⟩
      intro hnf
      simp only [if_neg hnf, List.map_map]
      rfl
    · obtain ⟨hsv, hsst⟩ := initHeapGo_facts _ _ _ h
      refine ⟨hsst, ?_⟩
      intro hnf
      rw [hsv]
      refine (map_v_map_reindex _ ?_ _).trans ?_
      · intro s
        split <;> rfl
      · rw [if_neg hnf, List.map_map]
        rfl

theorem orderedInsert_map_fst (a : Int × Nat) :
    ∀ (l : List (Int × Nat)),
      (List.orderedInsert pairLe a l).map Prod.fst =
        List.orderedInsert intLe a.1 (l.map Prod.fst) := by
  intro l
  induction l with
  | nil => rfl
  | cons b rest ih =>
    simp only [List.orderedInsert, List.map_cons]
    by_cases hab : pairLe a b
    · rw [if_pos hab, if_pos (show intLe a.1 b.1 from hab)]
      simp only [List.map_cons]
    · rw [if_neg hab, if_neg (show ¬ intLe a.1 b.1 from hab)]
      simp only [List.map_cons, ih]

theorem sortPairs_map_fst :
    ∀ (l : List (Int × Nat)),
      (sortPairs l).map Prod.fst = List.insertionSort intLe (l.map Prod.fst) := by
  intro l
  induction l with
  | nil => rfl
  | cons a rest ih =>
    simp only [sortPairs, List.insertionSort, List.map_cons] at ih ⊢
    rw [orderedInsert_map_fst, ih]

instance : IsAntisymm Int intLe := ⟨fun _ _ h1 h2 => le_antisymm h1 h2⟩

theorem insertionSort_int_eq_of_perm (l1 l2 : List Int) (h : l1.Perm l2) :
    List.insertionSort intLe l1 = List.insertionSort intLe l2 :=
  List.eq_of_perm_of_sorted
    ((List.perm_insertionSort intLe l1).trans
      (h.trans (List.perm_insertionSort intLe l2).symm))
    (List.sorted_insertionSort intLe l1)
    (List.sorted_insertionSort intLe l2)

theorem simplifyCore_keys_facts (problem : List (List Int)) (st : SimpState)
    (h : simplifyCore problem = .ok st) :
    (∀ k, k ∈ keysOf st.vars ↔ k ∈ problem.flatten.map goAbs) ∧
    (∀ k ∈ keysOf st.vars, 1 ≤ k) := by
  simp only [simplifyCore] at h
  cases hd : dedupProblem [] problem with
  | error e => rw [hd] at h; cases h
  | ok p =>
    obtain ⟨simplified0, vars0⟩ := p
    rw [hd] at h
    simp only [Except.ok.injEq] at h
    obtain ⟨d1, d2, d3, d4, d5⟩ := dedupProblem_ok_facts problem [] simplified0 vars0 hd
    obtain ⟨f1, -, -, -, -⟩ :=
      simpLoopF_facts (simpMeasure simplified0 + 1) vars0 simplified0
        (by omega) d4 d3
    rw [show simpLoop vars0 simplified0 =
      simpLoopF (simpMeasure simplified0 + 1) vars0 simplified0 from rfl] at h
    subst h
    rw [f1]
    have hmem : ∀ k, k ∈ keysOf vars0 ↔ k ∈ problem.flatten.map goAbs := by
      intro k
      rw [d1 k]
      simp [keysOf]
    refine ⟨hmem, ?_⟩
    intro k hk
    obtain ⟨v, hv, hvk⟩ := List.mem_map.mp ((hmem k).mp hk)
    rw [← hvk]
    exact goAbs_pos v (d5 v hv)

theorem solveGo_ok_true_not_false (fuel : Nat) (sv : Solver) (svf : Solver)
    (h : solveGo fuel sv = .ok (svf, true)) : sv.simpleSat ≠ assnFalseV := by
  intro hf
  simp only [solveGo, hf] at h
  rw [if_pos trivial, if_neg (by decide)] at h
  simp only [Out.ok.injEq, Prod.mk.injEq] at h
  exact Bool.noConfusion h.2

theorem extractSoln_forall2 (sv : Solver) :
    ∀ (svs : List SourceVar) (l : List Int), extractSoln sv svs = .ok l →
      List.Forall₂ (fun s x =>
        (resolvedAssn sv s = assnTrueV ∧ x = s.v) ∨
        (resolvedAssn sv s = assnFalseV ∧ x = -s.v)) svs l := by
  intro svs
  induction svs with
  | nil =>
    intro l h
    simp only [extractSoln, Except.ok.injEq] at h
    subst h
    exact List.Forall₂.nil
  | cons s rest ih =>
    intro l h
    simp only [extractSoln] at h
    generalize hA : (if s.assn = unassignedV
      then (sv.assignments.getD s.i 0) &&& 3 else s.assn) = A at h
    have hrA : resolvedAssn sv s = A := hA
    split at h
    · rename_i hF
      split at h
      · cases h
      · rename_i l2 hrec
        simp only [Except.ok.injEq] at h
        subst h
        exact List.Forall₂.cons (Or.inr ⟨hrA.trans hF, rfl⟩) (ih _ hrec)
    · split at h
      · rename_i hT
        split at h
        · cases h
        · rename_i l2 hrec
          simp only [Except.ok.injEq] at h
          subst h
          exact List.Forall₂.cons (Or.inl ⟨hrA.trans hT, rfl⟩) (ih _ hrec)
      · cases h

theorem forall2_assignment_abs (sv : Solver) :
    ∀ (svs : List SourceVar) (l : List Int),
      List.Forall₂ (fun s x =>
        (resolvedAssn sv s = assnTrueV ∧ x = s.v) ∨
        (resolvedAssn sv s = assnFalseV ∧ x = -s.v)) svs l →
      (∀ s ∈ svs, 1 ≤ s.v) →
      l.map goAbs = svs.map (fun s => s.v) := by
  intro svs l hf
  induction hf with
  | nil => intro _; rfl
  | cons hp hrest ih =>
    rename_i s x svs2 l2
    intro hpos
    simp only [List.map_cons]
    have hpos_s : 1 ≤ s.v := hpos s (List.mem_cons_self _ _)
    have hx : goAbs x = s.v := by
      rcases hp with ⟨-, hx⟩ | ⟨-, hx⟩
      · subst hx; unfold goAbs; split <;> omega
      · subst hx; unfold goAbs; split <;> omega
    rw [hx, ih (fun s hs => hpos s (List.mem_cons_of_mem _ hs))]
/-- C6 (assignment totality and format): whenever a run of Go `Solve`
returns `sat = true`, the returned assignment slice has exactly one entry
per distinct variable of the input, ordered by ascending absolute value
(its magnitudes are exactly the sorted deduplicated input magnitudes), and
each entry is `+v` when the final state assigns variable `v` TRUE and `-v`
when it assigns it FALSE.  Stated for every fuel and every map iteration
order `order` (any permutation of the simplifier's variable map). -/
theorem C6_assignment_totality (fuel : Nat) (problem : List (List Int))
    (order : List (Int × Nat)) (st : SimpState) (sv2 : Solver)
    (hcore : simplifyCore problem = .ok st)
    (hord : order.Perm st.vars)
    (hsat : satFlagOf (solveGoO fuel problem order) = some true)
    (hst : finalStateOfO fuel problem order = some sv2) :
    (assignmentOf (solveGoO fuel problem order)).map goAbs =
      List.insertionSort intLe ((problem.flatten.map goAbs).dedup) ∧
    List.Forall₂ (fun s x =>
      (resolvedAssn sv2 s = assnTrueV ∧ x = s.v) ∨
      (resolvedAssn sv2 s = assnFalseV ∧ x = -s.v))
      sv2.sourceVars (assignmentOf (solveGoO fuel problem order)) := by
  cases hns : newSolverO problem order with
  | error e => simp [finalStateOfO, hns] at hst
  | ok sv0 =>
    cases hgo : solveGo fuel sv0 with
    | timeout => simp [finalStateOfO, hns, hgo] at hst
    | panicked e => simp [finalStateOfO, hns, hgo] at hst
    | ok p =>
      obtain ⟨svf, okFlag⟩ := p
      have hsvf : svf = sv2 := by
        simp only [finalStateOfO, hns, hgo, Option.some.injEq] at hst
        exact hst
      cases okFlag with
      | false => simp [solveGoO, hns, hgo, satFlagOf] at hsat
      | true =>
        cases hex : extractSoln svf svf.sourceVars with
        | error e => simp [solveGoO, hns, hgo, hex, satFlagOf] at hsat
        | ok soln =>
          have hrun : solveGoO fuel problem order =
              Out.ok ⟨soln,
                ⟨decide (svf.simpleSat ≠ unassignedV), svf.numDecisions,
                 svf.numImplications⟩, true, svf.stdout⟩ := by
            simp only [solveGoO, hns, hgo, hex]
            rw [if_pos trivial]
          rw [hrun]
          simp only [assignmentOf]
          subst hsvf
          obtain ⟨st2, hcore2, hss, hmap⟩ := newSolverO_facts problem order sv0 hns
          rw [hcore] at hcore2
          simp only [Except.ok.injEq] at hcore2
          subst hcore2
          have hnf : st.simpleSat ≠ assnFalseV := by
            have h1 := solveGo_ok_true_not_false fuel sv0 svf hgo
            rw [hss] at h1
            exact h1
          have hsrc : svf.sourceVars = sv0.sourceVars :=
            solveGo_sourceVars fuel sv0 svf true hgo
          have hmapv : svf.sourceVars.map (fun s => s.v) =
              (sortPairs order).map Prod.fst := by
            rw [hsrc]
            exact hmap hnf
          obtain ⟨hkeys, hkeypos⟩ := simplifyCore_keys_facts problem st hcore
          have hnodup := simplifyCore_keys_nodup problem st hcore
          have hkeysperm : (keysOf st.vars).Perm ((problem.flatten.map goAbs).dedup) := by
            rw [List.perm_ext_iff_of_nodup hnodup (List.nodup_dedup _)]
            intro k
            rw [List.mem_dedup]
            exact hkeys k
          have hf2 := extractSoln_forall2 svf svf.sourceVars soln hex
          have hpos : ∀ s ∈ svf.sourceVars, 1 ≤ s.v := by
            intro s hs
            have hm : s.v ∈ svf.sourceVars.map (fun s => s.v) :=
              List.mem_map_of_mem _ hs
            rw [hmapv] at hm
            have hm2 : s.v ∈ (order.map Prod.fst) :=
              ((List.perm_insertionSort pairLe order).map Prod.fst).mem_iff.mp hm
            have hm3 : s.v ∈ keysOf st.vars :=
              (hord.map Prod.fst).mem_iff.mp hm2
            exact hkeypos _ hm3
          refine ⟨?_, hf2⟩
          rw [forall2_assignment_abs svf _ _ hf2 hpos, hmapv, sortPairs_map_fst]
          exact insertionSort_int_eq_of_perm _ _ ((hord.map Prod.fst).trans hkeysperm)

/-- Witness for C6 at the satisfiable problem `[[1]]` with fuel 1 and the
canonical iteration order: the returned assignment is `[1]`, whose
magnitude list `[1]` is exactly the sorted distinct input variables, and
the single entry is `+1` because variable 1 is assigned TRUE. -/
theorem C6_assignment_totality_witness :
    (assignmentOf (solveGoO 1 [[(1 : Int)]] [(1, assnTrueV)])).map goAbs =
      List.insertionSort intLe (([[(1 : Int)]].flatten.map goAbs).dedup) ∧
    List.Forall₂ (fun s x =>
      (resolvedAssn ⟨[⟨1, assnTrueV, 0⟩], assnTrueV, [], [], [], [], [], [],
        [], 0, [], 0, 0, []⟩ s = assnTrueV ∧ x = s.v) ∨
      (resolvedAssn ⟨[⟨1, assnTrueV, 0⟩], assnTrueV, [], [], [], [], [], [],
        [], 0, [], 0, 0, []⟩ s = assnFalseV ∧ x = -s.v))
      (Solver.sourceVars ⟨[⟨1, assnTrueV, 0⟩], assnTrueV, [], [], [], [], [],
        [], [], 0, [], 0, 0, []⟩)
      (assignmentOf (solveGoO 1 [[(1 : Int)]] [(1, assnTrueV)])) :=
  C6_assignment_totality 1 [[(1 : Int)]] [(1, assnTrueV)]
    ⟨[(1, assnTrueV)], [], assnTrueV⟩
    ⟨[⟨1, assnTrueV, 0⟩], assnTrueV, [], [], [], [], [], [], [], 0, [], 0, 0, []⟩
    rfl (List.Perm.refl _) rfl rfl
/-! ## C8: the DIMACS writer and parser (src/unnamed/part_001)

DIMACS text is modelled as the list of its byte values: 9-13 are the ASCII
control whitespace characters, 32 is the space, 10 the newline, 37 the
percent sign, 43 the plus, 45 the minus, 48-57 the digits 0-9, 99 the
letter c, 112 the letter p and 110/102 the letters n/f.  `bufio.Scanner`
yields the newline-separated lines without a trailing empty token;
`strings.Fields` splits on runs of whitespace; `strconv.Atoi` accepts an
optional sign followed by digits and enforces the 64-bit int range. -/

